import Mathlib

/-!
# Verification of the chunking / noise-filtering / retrieval pipeline

Shallow embedding of the core of the `ai-document-intelligence-rag`
repository:

* `src/ingestion/chunk_pages.py` — `split_paragraphs`, `chunk_page`, `main`
* `src/vector_store/build_index.py` — `is_noise`, `main`
* `src/vector_store/retrieve.py` — `main`
* `src/app/answer_question.py` — `get_relevant_chunks`

Python strings are modelled as `List Char` (`Str`).  The whitespace class
covers the ASCII whitespace characters recognised by Python's `str.strip`
and the regex class `\s` (non-ASCII Unicode whitespace is out of scope, as
all texts handled by the claims are ASCII).  The embedding model and the
vector distance of Chroma are black boxes, modelled as function parameters.
-/

namespace Rag

set_option maxRecDepth 1000000

abbrev Str := List Char

/-- ASCII whitespace, as recognised by Python's `str.strip()` and the regex
class `\s` (space, tab, newline, carriage return, vertical tab, form feed). -/
def isWS (c : Char) : Bool :=
  c == ' ' || c == '\t' || c == '\n' || c == '\r' || c == '\x0b' || c == '\x0c'

/-- Python `str.strip()`: drop leading and trailing whitespace. -/
def pyStrip (l : Str) : Str :=
  ((l.dropWhile isWS).reverse.dropWhile isWS).reverse

/-- Python `text.replace("\r\n", "\n")` (left-to-right, non-overlapping). -/
def normNewlines : Str → Str
  | '\r' :: '\n' :: rest => '\n' :: normNewlines rest
  | c :: rest => c :: normNewlines rest
  | [] => []

/-- Index of the last `'\n'` in a list, if any. -/
def lastNewlinePos : Str → Option Nat
  | [] => none
  | c :: rest =>
    match lastNewlinePos rest with
    | some p => some (p + 1)
    | none => if c == '\n' then some 0 else none

/-- Matching of the tail `\s*\n` of the separator regex `\n\s*\n` of
`split_paragraphs`, applied to the text following a `'\n'`.  The greedy
`\s*` with backtracking consumes up to the last `'\n'` inside the maximal
whitespace run; `some m` means the separator consumes `m` further
characters after the initial `'\n'`. -/
def sepScan (l : Str) : Option Nat :=
  match lastNewlinePos (l.takeWhile isWS) with
  | none => none
  | some p => some (p + 1)

/-- First match of the blank-line separator `\n\s*\n` in `l`: returns
`(j, n)` where `j` is the index at which the separator starts (the end of
the current lazy group `(.*?)`) and `n` the index just after the separator
(where `re.finditer` resumes). -/
def findBreak : Str → Option (Nat × Nat)
  | [] => none
  | c :: rest =>
    if c == '\n' then
      match sepScan rest with
      | some m => some (0, 1 + m)
      | none =>
        match findBreak rest with
        | some (j, n) => some (j + 1, n + 1)
        | none => none
    else
      match findBreak rest with
      | some (j, n) => some (j + 1, n + 1)
      | none => none

theorem lastNewlinePos_lt_length {l : Str} {p : Nat}
    (h : lastNewlinePos l = some p) : p < l.length := by
  induction l generalizing p with
  | nil => simp [lastNewlinePos] at h
  | cons c rest ih =>
    simp only [lastNewlinePos] at h
    cases hr : lastNewlinePos rest with
    | some q =>
      rw [hr] at h
      cases h
      have := ih hr
      simp only [List.length_cons]
      omega
    | none =>
      rw [hr] at h
      by_cases hc : c == '\n'
      · simp [hc] at h
        cases h
        simp
      · simp [hc] at h

theorem sepScan_le_length {l : Str} {m : Nat}
    (h : sepScan l = some m) : 1 ≤ m ∧ m ≤ l.length := by
  unfold sepScan at h
  cases hl : lastNewlinePos (l.takeWhile isWS) with
  | none => rw [hl] at h; exact absurd h (by simp)
  | some p =>
    rw [hl] at h
    cases h
    have h1 := lastNewlinePos_lt_length hl
    have h2 : (l.takeWhile isWS).length ≤ l.length :=
      (List.takeWhile_prefix isWS).length_le
    omega

theorem findBreak_bounds {l : Str} {j n : Nat}
    (h : findBreak l = some (j, n)) : j < n ∧ n ≤ l.length := by
  induction l generalizing j n with
  | nil => simp [findBreak] at h
  | cons c rest ih =>
    simp only [findBreak] at h
    by_cases hc : c == '\n'
    · rw [if_pos hc] at h
      cases hs : sepScan rest with
      | some m =>
        rw [hs] at h
        cases h
        have := sepScan_le_length hs
        simp only [List.length_cons]
        omega
      | none =>
        rw [hs] at h
        cases hf : findBreak rest with
        | none => rw [hf] at h; exact absurd h (by simp)
        | some jn =>
          obtain ⟨j0, n0⟩ := jn
          rw [hf] at h
          cases h
          have := ih hf
          simp only [List.length_cons]
          omega
    · rw [if_neg hc] at h
      cases hf : findBreak rest with
      | none => rw [hf] at h; exact absurd h (by simp)
      | some jn =>
        obtain ⟨j0, n0⟩ := jn
        rw [hf] at h
        cases h
        have := ih hf
        simp only [List.length_cons]
        omega

theorem findBreak_ne_nil {l : Str} {j n : Nat}
    (h : findBreak l = some (j, n)) : l ≠ [] := by
  intro hl
  subst hl
  simp [findBreak] at h

/-- The scanning loop of `re.finditer(r"(.*?)(?:\n\s*\n|$)", text, re.DOTALL)`
in `split_paragraphs`, together with the per-match body that strips each
group and records `(paragraph_stripped, match.start(1), match.end(1))`,
skipping empty groups.  `i` is the absolute position of `l` in the page
text.  When no separator remains, the anchor `$` also matches just before
a lone trailing newline, which is therefore excluded from the final
group's span.  Each separator consumes at least one character, so the
recursion is given `l.length + 1` fuel (see `split_paragraphs`), which is
never exhausted; the fuel only makes the recursion structural. -/
def splitGo (fuel : Nat) (i : Nat) (l : Str) : List (Str × Nat × Nat) :=
  match fuel with
  | 0 => []
  | fuel + 1 =>
    match findBreak l with
    | some (j, n) =>
      let raw := l.take j
      let p := pyStrip raw
      let tail := splitGo fuel (i + n) (l.drop n)
      if p = [] then tail else (p, i, i + j) :: tail
    | none =>
      let e := if l.getLast? = some '\n' then l.length - 1 else l.length
      let p := pyStrip (l.take e)
      if p = [] then [] else [(p, i, i + e)]

/-- `split_paragraphs` from `src/ingestion/chunk_pages.py`: `text or ""`,
normalise `\r\n`, and split on blank-line boundaries, producing
`(paragraph_stripped, start, end)` triples. -/
def split_paragraphs (text : Option Str) : List (Str × Nat × Nat) :=
  let t := normNewlines (text.getD [])
  splitGo (t.length + 1) 0 t

/-- `MAX_CHARS_PER_CHUNK` from `src/ingestion/chunk_pages.py`. -/
def MAX_CHARS_PER_CHUNK : Nat := 800

/-- Python `"\n\n".join(parts)`. -/
def joinSep : List Str → Str
  | [] => []
  | [p] => p
  | p :: q :: rest => p ++ '\n' :: '\n' :: joinSep (q :: rest)

/-- A chunk record as written to `chunks.json` by `chunk_pages.py`. -/
structure ChunkRec where
  doc_id : Str
  title : Str
  chunk_id : Nat
  source : Str
  page : Nat
  text : Str
  char_start : Nat
  char_end : Nat
deriving DecidableEq, Repr

/-- The inner `flush_current()` of `chunk_page`: emit the accumulated chunk
(if the parts list is non-empty, both offsets are set and the joined text
is non-empty after stripping) and advance the chunk-id counter. -/
def flushAcc (doc_id title source : Str) (page : Nat)
    (parts : List Str) (cs ce : Option Nat) (cid : Nat) :
    Option ChunkRec × Nat :=
  match parts, cs, ce with
  | [], _, _ => (none, cid)
  | _ :: _, none, _ => (none, cid)
  | _ :: _, some _, none => (none, cid)
  | p :: ps, some s, some e =>
    let t := pyStrip (joinSep (p :: ps))
    if t = [] then (none, cid)
    else (some { doc_id := doc_id, title := title, chunk_id := cid,
                 source := source, page := page, text := t,
                 char_start := s, char_end := e }, cid + 1)

/-- The paragraph loop of `chunk_page`: accumulate paragraphs into
`parts`/`cs`/`ce`, flushing when adding the next paragraph would push the
projected joined length over `MAX_CHARS_PER_CHUNK`, and flush the
remainder at the end. -/
def chunkLoop (doc_id title source : Str) (page : Nat) :
    List (Str × Nat × Nat) → List Str → Option Nat → Option Nat → Nat →
    List ChunkRec × Nat
  | [], parts, cs, ce, cid =>
    match flushAcc doc_id title source page parts cs ce cid with
    | (none, c) => ([], c)
    | (some ch, c) => ([ch], c)
  | (pt, ps, pe) :: rest, parts, cs, ce, cid =>
    if parts = [] then
      chunkLoop doc_id title source page rest [pt] (some ps) (some pe) cid
    else
      let projected := (joinSep parts).length + 2 + pt.length
      if projected > MAX_CHARS_PER_CHUNK then
        match flushAcc doc_id title source page parts cs ce cid with
        | (emitted, cid2) =>
          let res := chunkLoop doc_id title source page rest [pt] (some ps) (some pe) cid2
          (emitted.toList ++ res.1, res.2)
      else
        chunkLoop doc_id title source page rest (parts ++ [pt]) cs (some pe) cid

/-- `chunk_page` from `src/ingestion/chunk_pages.py`: build chunks from a
single page by grouping paragraphs until `MAX_CHARS_PER_CHUNK` is reached.
Returns the chunk list and the next free chunk id. -/
def chunk_page (text : Option Str) (page : Nat) (source doc_id title : Str)
    (start_chunk_id : Nat) : List ChunkRec × Nat :=
  let paragraphs := split_paragraphs text
  if paragraphs = [] then ([], start_chunk_id)
  else if pyStrip (text.getD []) = [] then ([], start_chunk_id)
  else chunkLoop doc_id title source page paragraphs [] none none start_chunk_id

/-- A page record as read from `pages.json` (output of `extract_text.py`).
The text is optional: `p.get("text", "")` may yield a JSON null, which
`chunk_page` folds to the empty string via `text or ""`. -/
structure PageRec where
  doc_id : Str
  title : Str
  page : Nat
  source : Str
  text : Option Str
deriving Repr

/-- The page loop of `main` in `chunk_pages.py`: thread the chunk-id
counter through every page, concatenating the chunks. -/
def processPages : List PageRec → Nat → List ChunkRec × Nat
  | [], n => ([], n)
  | p :: rest, n =>
    let r := chunk_page p.text p.page p.source p.doc_id p.title n
    let r2 := processPages rest r.2
    (r.1 ++ r2.1, r2.2)

/-- `main` of `chunk_pages.py`: chunk all pages starting the global
chunk-id counter at 0. -/
def chunkPagesMain (pages : List PageRec) : List ChunkRec × Nat :=
  processPages pages 0

/-! ## The noise filter (`is_noise` in `src/vector_store/build_index.py`) -/

/-- Python `str.lower()` (ASCII range). -/
def pyLower (l : Str) : Str := l.map Char.toLower

/-- Helper for `subCount`: scan left to right; `skip` counts characters
still covered by the previous match (so matches do not overlap). -/
def subCountAux (pat : Str) : Nat → Str → Nat
  | _, [] => 0
  | skip + 1, _ :: rest => subCountAux pat skip rest
  | 0, c :: rest =>
    if !pat.isEmpty && pat.isPrefixOf (c :: rest) then
      1 + subCountAux pat (pat.length - 1) rest
    else
      subCountAux pat 0 rest

/-- Python `str.count(sub)` for a non-empty pattern: number of
non-overlapping occurrences, scanning left to right. -/
def subCount (pat : Str) (l : Str) : Nat := subCountAux pat 0 l

/-- Python's substring test `sub in s`. -/
def containsSub (pat : Str) : Str → Bool
  | [] => pat.isEmpty
  | c :: rest => pat.isPrefixOf (c :: rest) || containsSub pat rest

/-- `is_noise` from `src/vector_store/build_index.py`: heuristic filter to
drop clearly non-content chunks such as references, ISBN/ISSN blocks, and
very short fragments. -/
def is_noise (text : Str) : Bool :=
  let t := pyLower text
  if (containsSub "isbn".toList t || containsSub "issn".toList t
      || containsSub "doi".toList t || containsSub "urn:".toList t) then true
  else if containsSub "sources".toList (t.take 50) then true
  else if 2 ≤ subCount "http://".toList t + subCount "https://".toList t
            + subCount "www.".toList t then true
  else if (pyStrip text).length < 150 then true
  else false

/-! ## The vector store (Chroma, as used by the repository)

The store is modelled as an association list of named collections; a
collection is a list of index entries.  The embedding model and the
distance ranking are black boxes, passed as function parameters. -/

inductive MetaVal where
  | int (n : Int)
  | str (s : Str)
deriving DecidableEq, Repr

abbrev Metadata := List (Str × MetaVal)

structure IndexEntry where
  id : Str
  document : Str
  metadata : Metadata
  embedding : List Int
deriving DecidableEq, Repr

abbrev Collection := List IndexEntry

abbrev Store := List (Str × Collection)

def COLLECTION_NAME : Str := "rag-chunks".toList

/-- `client.get_collection(name=...)`: `none` when the collection does not
exist (chromadb raises in that case). -/
def getCollection (st : Store) (name : Str) : Option Collection :=
  st.lookup name

/-- `client.get_or_create_collection(name=...)`: silently creates an empty
collection when the name is absent. -/
def getOrCreateCollection (st : Store) (name : Str) : Store × Collection :=
  match st.lookup name with
  | some c => (st, c)
  | none => (st ++ [(name, [])], [])

/-- `client.delete_collection(name=...)`. -/
def deleteCollection (st : Store) (name : Str) : Store :=
  st.filter (fun p => !(p.1 == name))

/-- Replace the contents of a named collection (`collection.add` on a
freshly created collection populates it). -/
def setCollection (st : Store) (name : Str) (col : Collection) : Store :=
  st.map (fun p => if p.1 == name then (p.1, col) else p)

/-- Chroma's `where={field: value}` filter: an entry matches when its
metadata holds exactly that value at that field; entries lacking the field
do not match. -/
def whereMatch (w : Option (Str × MetaVal)) (e : IndexEntry) : Bool :=
  match w with
  | none => true
  | some kv => e.metadata.lookup kv.1 == some kv.2

/-- Stable insertion by ascending distance (model of Chroma's ranking). -/
def insertRanked (le : IndexEntry → IndexEntry → Bool) (e : IndexEntry) :
    List IndexEntry → List IndexEntry
  | [] => [e]
  | x :: xs => if le e x then e :: x :: xs else x :: insertRanked le e xs

def sortRanked (le : IndexEntry → IndexEntry → Bool) :
    List IndexEntry → List IndexEntry
  | [] => []
  | x :: xs => insertRanked le x (sortRanked le xs)

/-- `collection.query(...)`: filter by the optional `where` clause, rank
the candidates by ascending distance to the query vector, return the top
`k` as parallel (document, metadata, distance) triples. -/
def queryCollection (dist : List Int → List Int → Int) (col : Collection)
    (qv : List Int) (k : Nat) (w : Option (Str × MetaVal)) :
    List (Str × Metadata × Int) :=
  let cands := col.filter (whereMatch w)
  let ranked := sortRanked
    (fun a b => decide (dist qv a.embedding ≤ dist qv b.embedding)) cands
  (ranked.take k).map (fun e => (e.document, e.metadata, dist qv e.embedding))

/-- Python `str(chunk_id)`. -/
def natToStr (n : Nat) : Str := Nat.toDigits 10 n

/-- The per-chunk index entries built by `main` of `build_index.py`:
`ids` are string-encoded chunk ids, `documents` the chunk texts, and the
metadata holds exactly the keys `page`, `source` and `chunk_id`. -/
def buildIndexEntries (embed : Str → List Int) (filtered : List ChunkRec) :
    List IndexEntry :=
  filtered.map (fun c =>
    { id := natToStr c.chunk_id
      document := c.text
      metadata := [("page".toList, MetaVal.int c.page),
                   ("source".toList, MetaVal.str c.source),
                   ("chunk_id".toList, MetaVal.int c.chunk_id)]
      embedding := embed c.text })

/-- `main` of `src/vector_store/build_index.py`: drop noise chunks, delete
any existing collection of the target name, recreate it and populate it
with one entry per surviving chunk. -/
def buildIndexMain (embed : Str → List Int) (chunks : List ChunkRec)
    (st : Store) : Store :=
  let filtered := chunks.filter (fun c => !is_noise c.text)
  let st1 := if (st.lookup COLLECTION_NAME).isSome
             then deleteCollection st COLLECTION_NAME else st
  let pr := getOrCreateCollection st1 COLLECTION_NAME
  setCollection pr.1 COLLECTION_NAME (pr.2 ++ buildIndexEntries embed filtered)

inductive RetrievalError where
  | collectionMissing
deriving DecidableEq, Repr

/-- `get_relevant_chunks` from `src/app/answer_question.py`: look the
collection up with `get_collection` (an error when it does not exist),
embed the question, and query with `where={"doc_id": doc_id}` when a
non-empty `doc_id` is given (Python truthiness: `if doc_id:`). -/
def get_relevant_chunks (embed : Str → List Int)
    (dist : List Int → List Int → Int) (st : Store) (question : Str)
    (k : Nat) (doc_id : Option Str) :
    Except RetrievalError (List (Str × Metadata × Int)) :=
  match getCollection st COLLECTION_NAME with
  | none => Except.error RetrievalError.collectionMissing
  | some col =>
    let qv := embed question
    let w : Option (Str × MetaVal) :=
      match doc_id with
      | none => none
      | some d => if d = [] then none else some ("doc_id".toList, MetaVal.str d)
    Except.ok (queryCollection dist col qv k w)

/-- `main` of `src/vector_store/retrieve.py`: return early on an empty
question (`none` result), otherwise look the collection up with
`get_or_create_collection` and query the top 5 without a filter. -/
def retrieveMain (embed : Str → List Int)
    (dist : List Int → List Int → Int) (st : Store) (question : Str) :
    Store × Option (List (Str × Metadata × Int)) :=
  if pyStrip question = [] then (st, none)
  else
    let qv := embed question
    let pr := getOrCreateCollection st COLLECTION_NAME
    (pr.1, some (queryCollection dist pr.2 qv 5 none))

/-! ## Lemmas about `pyStrip` -/

/-- A list whose first and last characters (when they exist) are not
whitespace; `pyStrip` fixes exactly these lists. -/
def NoWSEdge (l : Str) : Prop :=
  (∀ c, l.head? = some c → isWS c = false) ∧
  (∀ c, l.getLast? = some c → isWS c = false)

theorem dropWhile_eq_self_of_head {p : Char → Bool} {l : Str}
    (h : ∀ c, l.head? = some c → p c = false) : l.dropWhile p = l := by
  cases l with
  | nil => rfl
  | cons c rest => simp [List.dropWhile, h c rfl]

theorem head?_dropWhile_false {p : Char → Bool} {l : Str} {c : Char}
    (h : (l.dropWhile p).head? = some c) : p c = false := by
  induction l with
  | nil => simp [List.dropWhile] at h
  | cons a rest ih =>
    rw [List.dropWhile_cons] at h
    by_cases ha : p a
    · rw [if_pos ha] at h
      exact ih h
    · rw [if_neg ha] at h
      cases h
      simpa using ha

theorem getLast?_dropWhile {p : Char → Bool} {l : Str}
    (h : l.dropWhile p ≠ []) : (l.dropWhile p).getLast? = l.getLast? := by
  obtain ⟨t, ht⟩ := List.dropWhile_suffix (l := l) p
  conv_rhs => rw [← ht]
  rw [List.getLast?_append_of_ne_nil _ h]

theorem pyStrip_eq_self {l : Str} (h : NoWSEdge l) : pyStrip l = l := by
  unfold pyStrip
  rw [dropWhile_eq_self_of_head h.1]
  rw [dropWhile_eq_self_of_head, List.reverse_reverse]
  intro c hc
  rw [List.head?_reverse] at hc
  exact h.2 c hc

theorem noWSEdge_pyStrip (l : Str) : NoWSEdge (pyStrip l) := by
  unfold pyStrip
  constructor
  · intro c hc
    rw [List.head?_reverse] at hc
    by_cases hne : (l.dropWhile isWS).reverse.dropWhile isWS = []
    · rw [hne] at hc
      simp at hc
    · rw [getLast?_dropWhile hne, List.getLast?_reverse] at hc
      exact head?_dropWhile_false hc
  · intro c hc
    rw [List.getLast?_reverse] at hc
    exact head?_dropWhile_false hc

theorem pyStrip_eq_nil_iff {l : Str} : pyStrip l = [] ↔ ∀ c ∈ l, isWS c = true := by
  unfold pyStrip
  constructor
  · intro h c hc
    by_contra hws
    have h1 : c ∈ l.dropWhile isWS ∨ c ∈ l.takeWhile isWS := by
      have := List.takeWhile_append_dropWhile (p := isWS) (l := l)
      rw [← this] at hc
      rcases List.mem_append.mp hc with h1 | h1
      · exact Or.inr h1
      · exact Or.inl h1
    rcases h1 with h1 | h1
    · have h2 : c ∈ (l.dropWhile isWS).reverse.dropWhile isWS ∨
          c ∈ (l.dropWhile isWS).reverse.takeWhile isWS := by
        have := List.takeWhile_append_dropWhile (p := isWS)
          (l := (l.dropWhile isWS).reverse)
        have hc2 : c ∈ (l.dropWhile isWS).reverse := List.mem_reverse.mpr h1
        rw [← this] at hc2
        rcases List.mem_append.mp hc2 with h2 | h2
        · exact Or.inr h2
        · exact Or.inl h2
      rcases h2 with h2 | h2
      · rw [List.reverse_eq_nil_iff] at h
        rw [h] at h2
        simp at h2
      · exact hws (List.mem_takeWhile_imp h2)
    · exact hws (List.mem_takeWhile_imp h1)
  · intro h
    have h1 : l.dropWhile isWS = [] := List.dropWhile_eq_nil_iff.mpr (fun c hc => h c hc)
    rw [h1]
    rfl

theorem mem_pyStrip {l : Str} {c : Char} (h : c ∈ pyStrip l) : c ∈ l := by
  unfold pyStrip at h
  rw [List.mem_reverse] at h
  have h1 := (List.dropWhile_suffix (p := isWS)).subset h
  rw [List.mem_reverse] at h1
  exact (List.dropWhile_suffix (p := isWS)).subset h1

theorem pyStrip_ne_nil_of_mem {l : Str} {c : Char} (hc : c ∈ l)
    (hws : isWS c = false) : pyStrip l ≠ [] := by
  intro h
  rw [pyStrip_eq_nil_iff] at h
  rw [h c hc] at hws
  cases hws

/-! ## Lemmas about `joinSep` -/

theorem joinSep_cons_cons (p q : Str) (rest : List Str) :
    joinSep (p :: q :: rest) = p ++ '\n' :: '\n' :: joinSep (q :: rest) := rfl

theorem joinSep_append_singleton {xs : List Str} (y : Str) (h : xs ≠ []) :
    joinSep (xs ++ [y]) = joinSep xs ++ '\n' :: '\n' :: y := by
  induction xs with
  | nil => exact absurd rfl h
  | cons p rest ih =>
    cases rest with
    | nil => rfl
    | cons q rest2 =>
      have h1 : (p :: q :: rest2) ++ [y] = p :: q :: (rest2 ++ [y]) := by simp
      conv_lhs => rw [h1, joinSep_cons_cons, ← List.cons_append]
      rw [ih (by simp)]
      conv_rhs => rw [joinSep_cons_cons]
      simp [List.append_assoc]

theorem joinSep_length_append_singleton {xs : List Str} (y : Str) (h : xs ≠ []) :
    (joinSep (xs ++ [y])).length = (joinSep xs).length + 2 + y.length := by
  rw [joinSep_append_singleton y h]
  simp only [List.length_append, List.length_cons]
  omega

theorem head?_joinSep_cons {p : Str} (ps : List Str) (h : p ≠ []) :
    (joinSep (p :: ps)).head? = p.head? := by
  cases ps with
  | nil => rfl
  | cons q rest =>
    rw [joinSep_cons_cons]
    cases p with
    | nil => exact absurd rfl h
    | cons a b => rfl

theorem getLast?_joinSep_concat (xs : List Str) {y : Str} (h : y ≠ []) :
    (joinSep (xs ++ [y])).getLast? = y.getLast? := by
  cases xs with
  | nil => rfl
  | cons p rest =>
    rw [joinSep_append_singleton y (by simp)]
    rw [List.getLast?_append_of_ne_nil _ (by simp)]
    have : ('\n' :: '\n' :: y) = ['\n', '\n'] ++ y := rfl
    rw [this, List.getLast?_append_of_ne_nil _ h]

theorem joinSep_ne_nil {p : Str} {ps : List Str} (h : p ≠ []) :
    joinSep (p :: ps) ≠ [] := by
  intro hnil
  have h1 := head?_joinSep_cons ps h
  rw [hnil] at h1
  cases p with
  | nil => exact h rfl
  | cons a b => simp at h1

theorem noWSEdge_joinSep {parts : List Str}
    (hne : parts ≠ []) (h : ∀ p ∈ parts, p ≠ [] ∧ NoWSEdge p) :
    NoWSEdge (joinSep parts) := by
  cases parts with
  | nil => exact absurd rfl hne
  | cons p ps =>
    have hp := h p (by simp)
    constructor
    · intro c hc
      rw [head?_joinSep_cons ps hp.1] at hc
      exact hp.2.1 c hc
    · rcases List.eq_nil_or_concat (p :: ps) with hnil | ⟨xs, y, hxy⟩
      · simp at hnil
      · rw [List.concat_eq_append] at hxy
        intro c hc
        have hy := h y (by rw [hxy]; simp)
        rw [hxy, getLast?_joinSep_concat xs hy.1] at hc
        exact hy.2.2 c hc

theorem pyStrip_joinSep {parts : List Str}
    (hne : parts ≠ []) (h : ∀ p ∈ parts, p ≠ [] ∧ NoWSEdge p) :
    pyStrip (joinSep parts) = joinSep parts :=
  pyStrip_eq_self (noWSEdge_joinSep hne h)

/-! ## Lemmas about `normNewlines` -/

theorem normNewlines_nil : normNewlines [] = [] := rfl

theorem normNewlines_cons_eq {c : Char} {rest : Str}
    (h : ∀ t, c = '\r' → rest = '\n' :: t → False) :
    normNewlines (c :: rest) = c :: normNewlines rest := by
  rw [normNewlines.eq_def]
  split
  · rename_i t heq
    injection heq with h1 h2
    exact (h t h1 h2).elim
  · rename_i c2 rest2 hover heq
    injection heq with h1 h2
    rw [h1, h2]
  · rename_i heq
    exact absurd heq (by simp)

theorem normNewlines_cons_of_ne_cr {c : Char} (rest : Str) (h : ¬c = '\r') :
    normNewlines (c :: rest) = c :: normNewlines rest :=
  normNewlines_cons_eq (fun _ hc _ => absurd hc h)

theorem normNewlines_of_no_cr {l : Str} (h : ∀ c ∈ l, ¬c = '\r') :
    normNewlines l = l := by
  induction l with
  | nil => rfl
  | cons c rest ih =>
    rw [normNewlines_cons_of_ne_cr rest (h c (by simp))]
    rw [ih (fun c hc => h c (by simp [hc]))]

theorem mem_normNewlines {l : Str} {a : Char} (h : a ∈ normNewlines l) : a ∈ l := by
  induction l using normNewlines.induct with
  | case1 rest ih =>
    rw [show normNewlines ('\r' :: '\n' :: rest) = '\n' :: normNewlines rest from rfl] at h
    rcases List.mem_cons.mp h with h1 | h1
    · simp [h1]
    · simp [ih h1]
  | case2 c rest hne ih =>
    rw [normNewlines_cons_eq hne] at h
    rcases List.mem_cons.mp h with h1 | h1
    · simp [h1]
    · simp [ih h1]
  | case3 => simp [normNewlines] at h

/-! ## Lemmas about `findBreak` and `splitGo` -/

theorem pyStrip_idem (l : Str) : pyStrip (pyStrip l) = pyStrip l :=
  pyStrip_eq_self (noWSEdge_pyStrip l)

theorem pyStrip_nil : pyStrip [] = [] := rfl

/-- The fuel of `splitGo` is irrelevant as soon as it exceeds the length of
the text (each separator consumes at least one character). -/
theorem splitGo_fuel_congr : ∀ {f1 f2 i : Nat} {l : Str},
    l.length < f1 → l.length < f2 → splitGo f1 i l = splitGo f2 i l := by
  intro f1
  induction f1 with
  | zero => intro f2 i l h1 h2; omega
  | succ g ih =>
    intro f2 i l h1 h2
    cases f2 with
    | zero => omega
    | succ h =>
      cases hb : findBreak l with
      | some jn =>
        obtain ⟨j, n⟩ := jn
        have hbd := findBreak_bounds hb
        have hne := findBreak_ne_nil hb
        have hlen : 0 < l.length := List.length_pos.mpr hne
        simp only [splitGo, hb]
        have hrec := @ih h (i + n) (l.drop n)
          (by simp only [List.length_drop]; omega)
          (by simp only [List.length_drop]; omega)
        rw [hrec]
      | none => simp only [splitGo, hb]

/-- Invariants of `splitGo`: every produced paragraph is non-empty and
stripped, its span lies inside `[i, i + l.length)` with `start < end`, the
paragraph text is recovered by stripping the span's slice, and the spans
of distinct paragraphs are ordered and disjoint. -/
theorem splitGo_spec : ∀ {fuel i : Nat} {l : Str}, l.length < fuel →
    (∀ q ∈ splitGo fuel i l,
      (q.1 ≠ [] ∧ pyStrip q.1 = q.1) ∧
      (i ≤ q.2.1 ∧ q.2.1 < q.2.2 ∧ q.2.2 ≤ i + l.length) ∧
      q.1 = pyStrip ((l.drop (q.2.1 - i)).take (q.2.2 - q.2.1))) ∧
    (splitGo fuel i l).Pairwise (fun a b => a.2.2 ≤ b.2.1) := by
  intro fuel
  induction fuel with
  | zero => intro i l h; omega
  | succ g ih =>
    intro i l hfuel
    cases hb : findBreak l with
    | some jn =>
      obtain ⟨j, n⟩ := jn
      have hbd := findBreak_bounds hb
      have hne := findBreak_ne_nil hb
      have hlen : 0 < l.length := List.length_pos.mpr hne
      have hdroplen : (l.drop n).length < g := by
        simp only [List.length_drop]; omega
      have htail := ih (i := i + n) (l := l.drop n) hdroplen
      simp only [splitGo, hb]
      have htail_facts : ∀ q ∈ splitGo g (i + n) (l.drop n),
          (q.1 ≠ [] ∧ pyStrip q.1 = q.1) ∧
          (i ≤ q.2.1 ∧ q.2.1 < q.2.2 ∧ q.2.2 ≤ i + l.length) ∧
          q.1 = pyStrip ((l.drop (q.2.1 - i)).take (q.2.2 - q.2.1)) := by
        intro q hq
        obtain ⟨hq1, hq2, hq3⟩ := htail.1 q hq
        refine ⟨hq1, ⟨by omega, hq2.2.1, by simp only [List.length_drop] at hq2; omega⟩, ?_⟩
        rw [hq3, List.drop_drop]
        have harith : n + (q.2.1 - (i + n)) = q.2.1 - i := by omega
        rw [harith]
      by_cases hp : pyStrip (l.take j) = []
      · simp only [if_pos hp]
        exact ⟨htail_facts, htail.2⟩
      · simp only [if_neg hp]
        have hj : 1 ≤ j := by
          by_contra hj0
          have : j = 0 := by omega
          rw [this] at hp
          simp [pyStrip_nil] at hp
        constructor
        · intro q hq
          rcases List.mem_cons.mp hq with hq1 | hq1
          · subst hq1
            refine ⟨⟨hp, pyStrip_idem _⟩, ⟨le_refl i, ?_, ?_⟩, ?_⟩
            · show i < i + j
              omega
            · show i + j ≤ i + l.length
              omega
            · show pyStrip (l.take j)
                = pyStrip ((l.drop (i - i)).take (i + j - i))
              simp only [Nat.sub_self, List.drop_zero, Nat.add_sub_cancel_left]
          · exact htail_facts q hq1
        · refine List.Pairwise.cons ?_ htail.2
          intro q hq
          have hsp := (htail.1 q hq).2.1
          show i + j ≤ q.2.1
          omega
    | none =>
      simp only [splitGo, hb]
      set e := if l.getLast? = some '\n' then l.length - 1 else l.length with he
      have he_le : e ≤ l.length := by
        rw [he]; split <;> omega
      by_cases hp : pyStrip (l.take e) = []
      · simp only [if_pos hp]
        exact ⟨by intro q hq; simp at hq, List.Pairwise.nil⟩
      · simp only [if_neg hp]
        have hee : 1 ≤ e := by
          by_contra he0
          have : e = 0 := by omega
          rw [this] at hp
          simp [pyStrip_nil] at hp
        constructor
        · intro q hq
          rcases List.mem_cons.mp hq with hq1 | hq1
          · subst hq1
            refine ⟨⟨hp, pyStrip_idem _⟩, ⟨le_refl i, ?_, ?_⟩, ?_⟩
            · show i < i + e
              omega
            · show i + e ≤ i + l.length
              omega
            · show pyStrip (l.take e)
                = pyStrip ((l.drop (i - i)).take (i + e - i))
              simp only [Nat.sub_self, List.drop_zero, Nat.add_sub_cancel_left]
          · simp at hq1
        · simp

/-- A list of characters none of which is whitespace. -/
def NoWSChar (l : Str) : Prop := ∀ c ∈ l, isWS c = false

theorem noWSChar_replicate {c : Char} (n : Nat) (h : isWS c = false) :
    NoWSChar (List.replicate n c) := by
  intro a ha
  rw [List.eq_of_mem_replicate ha]
  exact h

theorem NoWSChar.no_nl {l : Str} (h : NoWSChar l) : ∀ c ∈ l, ¬c = '\n' := by
  intro c hc hnl
  have := h c hc
  rw [hnl] at this
  cases this

theorem mem_of_getLast?_eq {l : Str} {a : Char} (h : l.getLast? = some a) :
    a ∈ l := by
  have hx : a ∈ l.getLast? := by rw [Option.mem_def]; exact h
  obtain ⟨hne, heq⟩ := List.mem_getLast?_eq_getLast hx
  rw [heq]
  exact List.getLast_mem hne

theorem NoWSChar.noWSEdge {l : Str} (h : NoWSChar l) : NoWSEdge l := by
  constructor
  · intro c hc
    exact h c (by cases l with
      | nil => cases hc
      | cons a b => cases hc; simp)
  · intro c hc
    exact h c (mem_of_getLast?_eq hc)

theorem findBreak_of_no_nl {l : Str} (h : ∀ c ∈ l, ¬c = '\n') :
    findBreak l = none := by
  induction l with
  | nil => rfl
  | cons c rest ih =>
    have hc : (c == '\n') = false := by
      have := h c (by simp)
      simpa using this
    have ih2 := ih (fun a ha => h a (by simp [ha]))
    simp only [findBreak, hc, ih2, Bool.false_eq_true, if_false]

theorem getLast?_ne_nl_of_noWS {l : Str} (h : NoWSChar l) :
    ¬l.getLast? = some '\n' := by
  intro hgl
  have := h '\n' (mem_of_getLast?_eq hgl)
  simp [isWS] at this

/-- `splitGo` on a whitespace-free non-empty text: one paragraph spanning
the whole text. -/
theorem splitGo_plain {l : Str} {fuel i : Nat} (h : NoWSChar l) (hne : l ≠ [])
    (hfuel : l.length < fuel) :
    splitGo fuel i l = [(l, i, i + l.length)] := by
  cases fuel with
  | zero => omega
  | succ g =>
    have hb : findBreak l = none := findBreak_of_no_nl h.no_nl
    simp only [splitGo, hb]
    rw [if_neg (getLast?_ne_nl_of_noWS h)]
    rw [List.take_length]
    rw [pyStrip_eq_self h.noWSEdge]
    rw [if_neg hne]

/-- `split_paragraphs` on a whitespace-free non-empty text. -/
theorem split_paragraphs_plain {l : Str} (h : NoWSChar l) (hne : l ≠ []) :
    split_paragraphs (some l) = [(l, 0, l.length)] := by
  have hnorm : normNewlines l = l := by
    apply normNewlines_of_no_cr
    intro c hc hcr
    have := h c hc
    rw [hcr] at this
    cases this
  unfold split_paragraphs
  simp only [Option.getD_some, hnorm]
  rw [splitGo_plain h hne (by omega)]
  simp

/-- The first blank-line separator of `xs ++ "\n\n" ++ (c :: rest)` where
`xs` carries no newline and `c` is not whitespace. -/
theorem findBreak_append_sep {xs : Str} {c : Char} {rest : Str}
    (hxs : ∀ a ∈ xs, ¬a = '\n') (hc : isWS c = false) :
    findBreak (xs ++ '\n' :: '\n' :: c :: rest) = some (xs.length, xs.length + 2) := by
  induction xs with
  | nil =>
    have hcws : (isWS c) = false := hc
    simp only [List.nil_append, findBreak, beq_self_eq_true, if_pos,
      sepScan, List.takeWhile]
    rw [show isWS '\n' = true from rfl]
    simp only [hcws]
    rfl
  | cons a xs ih =>
    have ha : (a == '\n') = false := by
      have := hxs a (by simp)
      simpa using this
    have ih2 := ih (fun b hb => hxs b (by simp [hb]))
    simp only [List.cons_append, findBreak, ha, List.append_eq, ih2,
      Bool.false_eq_true, if_false, Option.some.injEq, Prod.mk.injEq,
      List.length_cons]

/-- Peel one paragraph plus its blank-line separator off the front of the
text under `splitGo`. -/
theorem splitGo_append_sep {xs : Str} {c : Char} {rest : Str} {fuel i : Nat}
    (hxs : ∀ a ∈ xs, ¬a = '\n') (hc : isWS c = false)
    (hfuel : (xs ++ '\n' :: '\n' :: c :: rest).length < fuel) :
    splitGo fuel i (xs ++ '\n' :: '\n' :: c :: rest)
      = (if pyStrip xs = [] then [] else [(pyStrip xs, i, i + xs.length)])
        ++ splitGo ((c :: rest).length + 1) (i + (xs.length + 2)) (c :: rest) := by
  cases fuel with
  | zero =>
    exact absurd hfuel (by omega)
  | succ g =>
    have htake : (xs ++ '\n' :: '\n' :: c :: rest).take xs.length = xs := by
      rw [List.take_left]
    have hdrop : (xs ++ '\n' :: '\n' :: c :: rest).drop (xs.length + 2) = c :: rest := by
      have hsplit : xs ++ '\n' :: '\n' :: c :: rest
          = (xs ++ ['\n', '\n']) ++ (c :: rest) := by simp
      rw [hsplit, List.drop_left']
      simp
    have hlen : (xs ++ '\n' :: '\n' :: c :: rest).length
        = xs.length + 3 + rest.length := by
      simp only [List.length_append, List.length_cons]
      omega
    have hrec : splitGo g (i + (xs.length + 2))
          ((xs ++ '\n' :: '\n' :: c :: rest).drop (xs.length + 2))
        = splitGo ((c :: rest).length + 1) (i + (xs.length + 2)) (c :: rest) := by
      rw [hdrop]
      exact splitGo_fuel_congr (by simp only [List.length_cons]; omega)
        (by omega)
    generalize hF : (c :: rest).length + 1 = F at hrec ⊢
    simp only [splitGo, findBreak_append_sep hxs hc]
    rw [htake, hrec]
    by_cases hps : pyStrip xs = []
    · rw [if_pos hps, if_pos hps, List.nil_append]
    · rw [if_neg hps, if_neg hps, List.singleton_append]

theorem normNewlines_length_le (l : Str) : (normNewlines l).length ≤ l.length := by
  induction l using normNewlines.induct with
  | case1 rest ih =>
    rw [show normNewlines ('\r' :: '\n' :: rest) = '\n' :: normNewlines rest from rfl]
    simp only [List.length_cons]
    omega
  | case2 c rest hne ih =>
    rw [normNewlines_cons_eq hne]
    simp only [List.length_cons]
    omega
  | case3 => simp [normNewlines]

/-! ## The accumulation loop of `chunk_page` -/

theorem noWSEdge_of_strip_fix {l : Str} (h : pyStrip l = l) : NoWSEdge l := by
  have h2 := noWSEdge_pyStrip l
  rwa [h] at h2

theorem mem_of_getLast?_some {α : Type} {l : List α} {a : α}
    (h : l.getLast? = some a) : a ∈ l := by
  have hx : a ∈ l.getLast? := by rw [Option.mem_def]; exact h
  obtain ⟨hne, heq⟩ := List.mem_getLast?_eq_getLast hx
  rw [heq]
  exact List.getLast_mem hne

/-- `flush_current` on a coherent non-empty accumulator of stripped
non-empty parts always emits a chunk carrying the joined text. -/
theorem flushAcc_cons {d ttl src : Str} {pg : Nat} {p : Str} {ps : List Str}
    {s e cid : Nat} (h : ∀ x ∈ p :: ps, x ≠ [] ∧ NoWSEdge x) :
    flushAcc d ttl src pg (p :: ps) (some s) (some e) cid
      = (some { doc_id := d, title := ttl, chunk_id := cid, source := src,
                page := pg, text := joinSep (p :: ps),
                char_start := s, char_end := e }, cid + 1) := by
  have hstrip : pyStrip (joinSep (p :: ps)) = joinSep (p :: ps) :=
    pyStrip_joinSep (by simp) h
  have hnn : joinSep (p :: ps) ≠ [] := joinSep_ne_nil (h p (by simp)).1
  simp only [flushAcc, hstrip]
  rw [if_neg hnn]

/-- From the head and the last element of a span-ordered paragraph group,
the union span is non-degenerate. -/
theorem head_last_span {L : Nat} {g : List (Str × Nat × Nat)}
    {q qn : Str × Nat × Nat}
    (hq : g.head? = some q) (hqn : g.getLast? = some qn)
    (hspan : ∀ x ∈ g, x.2.1 < x.2.2 ∧ x.2.2 ≤ L)
    (hpw : g.Pairwise (fun a b => a.2.2 ≤ b.2.1)) :
    q.2.1 < qn.2.2 := by
  cases g with
  | nil => cases hq
  | cons q0 g2 =>
    cases hq
    cases g2 with
    | nil =>
      cases hqn
      exact (hspan q (by simp)).1
    | cons b g3 =>
      rw [show (q :: b :: g3).getLast? = (b :: g3).getLast? from rfl] at hqn
      have hmem : qn ∈ b :: g3 := mem_of_getLast?_some hqn
      have hrel : q.2.2 ≤ qn.2.1 := (List.pairwise_cons.mp hpw).1 qn hmem
      have h1 := (hspan q (by simp)).1
      have h2 := (hspan qn (by simp [hmem])).1
      omega

/-- The conclusions of the main loop invariant of `chunk_page`:
global identifiers are consecutive from `cid`; every emitted chunk is the
`"\n\n"`-join of a non-empty group of paragraphs of the page, spans the
group's union span, and respects `MAX_CHARS_PER_CHUNK` whenever the group
has at least two paragraphs; chunk spans are well-formed, ordered and
disjoint; metadata fields are copied from the page. -/
structure LoopOut (P : List (Str × Nat × Nat)) (L cid : Nat)
    (d ttl src : Str) (pg : Nat) (g : List (Str × Nat × Nat))
    (out : List ChunkRec × Nat) : Prop where
  ids_next : out.2 = cid + out.1.length
  ids_map : out.1.map ChunkRec.chunk_id = List.range' cid out.1.length
  groups : ∀ c ∈ out.1, ∃ h q1 qn, h ≠ [] ∧ (∀ q ∈ h, q ∈ P) ∧
    h.head? = some q1 ∧ h.getLast? = some qn ∧
    c.text = joinSep (h.map (fun q => q.1)) ∧
    c.char_start = q1.2.1 ∧ c.char_end = qn.2.2 ∧
    (2 ≤ h.length → c.text.length ≤ MAX_CHARS_PER_CHUNK)
  spans : ∀ c ∈ out.1, c.char_start < c.char_end ∧ c.char_end ≤ L
  chain : out.1.Chain' (fun a b => a.char_end ≤ b.char_start)
  lower : ∀ c ∈ out.1, ∀ q1, g.head? = some q1 → q1.2.1 ≤ c.char_start
  flds : ∀ c ∈ out.1, c.doc_id = d ∧ c.title = ttl ∧ c.source = src ∧ c.page = pg

theorem chunkLoop_spec (d ttl src : Str) (pg : Nat)
    (P : List (Str × Nat × Nat)) (L : Nat) :
    ∀ (rest : List (Str × Nat × Nat)), ∀ (g : List (Str × Nat × Nat)) (cid : Nat),
    (∀ q ∈ g ++ rest, q.1 ≠ [] ∧ NoWSEdge q.1) →
    (∀ q ∈ g ++ rest, q ∈ P) →
    (∀ q ∈ g ++ rest, q.2.1 < q.2.2 ∧ q.2.2 ≤ L) →
    List.Pairwise (fun a b => a.2.2 ≤ b.2.1) (g ++ rest) →
    (2 ≤ g.length → (joinSep (g.map (fun q => q.1))).length ≤ MAX_CHARS_PER_CHUNK) →
    LoopOut P L cid d ttl src pg g
      (chunkLoop d ttl src pg rest (g.map (fun q => q.1))
        ((g.head?).map (fun q => q.2.1)) ((g.getLast?).map (fun q => q.2.2)) cid) := by
  intro rest
  induction rest with
  | nil =>
    intro g cid hgood hmem hspan hpw hsize
    rw [List.append_nil] at hgood hmem hspan hpw
    cases g with
    | nil =>
      refine ⟨?_, ?_, ?_, ?_, ?_, ?_, ?_⟩ <;>
        simp [chunkLoop, flushAcc]
    | cons q g2 =>
      obtain ⟨qn, hqn⟩ : ∃ qn, (q :: g2).getLast? = some qn :=
        ⟨(q :: g2).getLast (by simp), List.getLast?_eq_getLast _ _⟩
      have hparts : ∀ x ∈ (q :: g2).map (fun r => r.1), x ≠ [] ∧ NoWSEdge x := by
        intro x hx
        rw [List.mem_map] at hx
        obtain ⟨r, hr, hrx⟩ := hx
        subst hrx
        exact hgood r hr
      have hout : chunkLoop d ttl src pg [] ((q :: g2).map (fun r => r.1))
          (((q :: g2).head?).map (fun r => r.2.1))
          (((q :: g2).getLast?).map (fun r => r.2.2)) cid
          = ([{ doc_id := d, title := ttl, chunk_id := cid, source := src,
                page := pg, text := joinSep ((q :: g2).map (fun r => r.1)),
                char_start := q.2.1, char_end := qn.2.2 }], cid + 1) := by
        rw [hqn]
        simp only [List.map_cons, List.head?_cons, Option.map_some']
        rw [show chunkLoop d ttl src pg [] (q.1 :: g2.map (fun r => r.1))
            (some q.2.1) (some qn.2.2) cid
          = match flushAcc d ttl src pg (q.1 :: g2.map (fun r => r.1))
              (some q.2.1) (some qn.2.2) cid with
            | (none, c) => ([], c)
            | (some ch, c) => ([ch], c) from rfl]
        rw [flushAcc_cons (by simpa using hparts)]
      rw [hout]
      have hql : q.2.1 < qn.2.2 :=
        head_last_span (L := L) (g := q :: g2) rfl hqn hspan hpw
      refine ⟨rfl, by simp, ?_, ?_, ?_, ?_, ?_⟩
      · intro c hc
        rw [List.mem_singleton] at hc
        subst hc
        refine ⟨q :: g2, q, qn, by simp, ?_, rfl, hqn, rfl, rfl, rfl, ?_⟩
        · intro r hr
          exact hmem r hr
        · intro hlen
          exact hsize (by simpa using hlen)
      · intro c hc
        rw [List.mem_singleton] at hc
        subst hc
        refine ⟨hql, ?_⟩
        exact (hspan qn (mem_of_getLast?_some hqn)).2
      · simp
      · intro c hc q1 hq1
        rw [List.mem_singleton] at hc
        subst hc
        cases hq1
        exact le_refl _
      · intro c hc
        rw [List.mem_singleton] at hc
        subst hc
        exact ⟨rfl, rfl, rfl, rfl⟩
  | cons p rest2 ih =>
    intro g cid hgood hmem hspan hpw hsize
    obtain ⟨pt, ps, pe⟩ := p
    cases g with
    | nil =>
      have hstep : chunkLoop d ttl src pg ((pt, ps, pe) :: rest2)
          (([] : List (Str × Nat × Nat)).map (fun r => r.1))
          ((([] : List (Str × Nat × Nat)).head?).map (fun r => r.2.1))
          ((([] : List (Str × Nat × Nat)).getLast?).map (fun r => r.2.2)) cid
          = chunkLoop d ttl src pg rest2 [pt] (some ps) (some pe) cid := by
        simp [chunkLoop]
      rw [hstep]
      have hIH := ih [(pt, ps, pe)] cid
        (fun r hr => hgood r hr) (fun r hr => hmem r hr) (fun r hr => hspan r hr)
        hpw (by intro h2; simp at h2)
      simp only [List.map_cons, List.map_nil, List.head?_cons,
        Option.map_some'] at hIH
      have hIH2 : LoopOut P L cid d ttl src pg [(pt, ps, pe)]
          (chunkLoop d ttl src pg rest2 [pt] (some ps) (some pe) cid) := by
        convert hIH using 2
      exact ⟨hIH2.ids_next, hIH2.ids_map, hIH2.groups, hIH2.spans, hIH2.chain,
        (by intro c hc q1 hq1; exact Option.noConfusion hq1), hIH2.flds⟩
    | cons q g2 =>
      obtain ⟨qn, hqn⟩ : ∃ qn, (q :: g2).getLast? = some qn :=
        ⟨(q :: g2).getLast (by simp), List.getLast?_eq_getLast _ _⟩
      have hparts : ∀ x ∈ (q :: g2).map (fun r => r.1), x ≠ [] ∧ NoWSEdge x := by
        intro x hx
        rw [List.mem_map] at hx
        obtain ⟨r, hr, hrx⟩ := hx
        subst hrx
        exact hgood r (List.mem_append.mpr (Or.inl hr))
      by_cases hproj : (joinSep ((q :: g2).map (fun r => r.1))).length + 2 + pt.length
          > MAX_CHARS_PER_CHUNK
      · -- flush, then start a new group with the paragraph that did not fit
        have hout : chunkLoop d ttl src pg ((pt, ps, pe) :: rest2)
            ((q :: g2).map (fun r => r.1))
            (((q :: g2).head?).map (fun r => r.2.1))
            (((q :: g2).getLast?).map (fun r => r.2.2)) cid
            = (({ doc_id := d, title := ttl, chunk_id := cid, source := src,
                  page := pg, text := joinSep ((q :: g2).map (fun r => r.1)),
                  char_start := q.2.1, char_end := qn.2.2 } : ChunkRec)
                :: (chunkLoop d ttl src pg rest2 [pt] (some ps) (some pe) (cid + 1)).1,
               (chunkLoop d ttl src pg rest2 [pt] (some ps) (some pe) (cid + 1)).2) := by
          rw [hqn]
          simp only [List.map_cons, List.head?_cons, Option.map_some']
          simp only [chunkLoop]
          rw [if_neg (by simp)]
          rw [if_pos (by simpa using hproj)]
          rw [flushAcc_cons (by simpa using hparts)]
          simp [Option.toList]
        rw [hout]
        have hsub : ((pt, ps, pe) :: rest2).Sublist ((q :: g2) ++ (pt, ps, pe) :: rest2) :=
          List.sublist_append_right _ _
        have hIH := ih [(pt, ps, pe)] (cid + 1)
          (fun r hr => hgood r (List.mem_append.mpr (Or.inr hr)))
          (fun r hr => hmem r (List.mem_append.mpr (Or.inr hr)))
          (fun r hr => hspan r (List.mem_append.mpr (Or.inr hr)))
          (List.Pairwise.sublist hsub hpw)
          (by intro h2; simp at h2)
        simp only [List.map_cons, List.map_nil, List.head?_cons,
          Option.map_some'] at hIH
        have hIH2 : LoopOut P L (cid + 1) d ttl src pg [(pt, ps, pe)]
            (chunkLoop d ttl src pg rest2 [pt] (some ps) (some pe) (cid + 1)) := by
          convert hIH using 2
        have hspan_g : ∀ x ∈ q :: g2, x.2.1 < x.2.2 ∧ x.2.2 ≤ L := by
          intro x hx
          exact hspan x (List.mem_append.mpr (Or.inl hx))
        have hpw_g : (q :: g2).Pairwise (fun a b => a.2.2 ≤ b.2.1) :=
          (List.pairwise_append.mp hpw).1
        have hql : q.2.1 < qn.2.2 :=
          head_last_span (L := L) (g := q :: g2) rfl hqn hspan_g hpw_g
        have hqnp : qn.2.2 ≤ ps := by
          have := (List.pairwise_append.mp hpw).2.2 qn
            (mem_of_getLast?_some hqn) (pt, ps, pe) (by simp)
          simpa using this
        have hlow : ∀ c ∈ (chunkLoop d ttl src pg rest2 [pt] (some ps)
            (some pe) (cid + 1)).1, ps ≤ c.char_start := by
          intro c hc
          exact hIH2.lower c hc (pt, ps, pe) rfl
        refine ⟨?_, ?_, ?_, ?_, ?_, ?_, ?_⟩
        · simp only [List.length_cons]
          rw [hIH2.ids_next]
          omega
        · simp only [List.map_cons, List.length_cons, List.range'_succ,
            hIH2.ids_map]
        · intro c hc
          rcases List.mem_cons.mp hc with hc1 | hc1
          · subst hc1
            refine ⟨q :: g2, q, qn, by simp, ?_, rfl, hqn, rfl, rfl, rfl, ?_⟩
            · intro r hr
              exact hmem r (List.mem_append.mpr (Or.inl hr))
            · intro hlen
              exact hsize (by simpa using hlen)
          · exact hIH2.groups c hc1
        · intro c hc
          rcases List.mem_cons.mp hc with hc1 | hc1
          · subst hc1
            exact ⟨hql, (hspan_g qn (mem_of_getLast?_some hqn)).2⟩
          · exact hIH2.spans c hc1
        · rw [List.chain'_cons']
          refine ⟨?_, hIH2.chain⟩
          intro y hy
          have hmem_y : y ∈ (chunkLoop d ttl src pg rest2 [pt] (some ps)
              (some pe) (cid + 1)).1 := List.mem_of_mem_head? hy
          have hz := hlow y hmem_y
          show qn.2.2 ≤ y.char_start
          omega
        · intro c hc q1 hq1
          cases hq1
          rcases List.mem_cons.mp hc with hc1 | hc1
          · subst hc1
            exact le_refl _
          · have := hlow c hc1
            omega
        · intro c hc
          rcases List.mem_cons.mp hc with hc1 | hc1
          · subst hc1
            exact ⟨rfl, rfl, rfl, rfl⟩
          · exact hIH2.flds c hc1
      · -- append the paragraph to the current group
        have hout : chunkLoop d ttl src pg ((pt, ps, pe) :: rest2)
            ((q :: g2).map (fun r => r.1))
            (((q :: g2).head?).map (fun r => r.2.1))
            (((q :: g2).getLast?).map (fun r => r.2.2)) cid
            = chunkLoop d ttl src pg rest2
              ((q :: g2).map (fun r => r.1) ++ [pt])
              (some q.2.1) (some pe) cid := by
          rw [hqn]
          simp only [List.map_cons, List.head?_cons, Option.map_some']
          simp only [chunkLoop]
          rw [if_neg (by simp)]
          rw [if_neg (by simpa using hproj)]
        rw [hout]
        have hglist : ((q :: g2) ++ [(pt, ps, pe)]) ++ rest2
            = (q :: g2) ++ (pt, ps, pe) :: rest2 := by simp
        have hIH := ih ((q :: g2) ++ [(pt, ps, pe)]) cid
          (by rw [hglist]; exact hgood)
          (by rw [hglist]; exact hmem)
          (by rw [hglist]; exact hspan)
          (by rw [hglist]; exact hpw)
          (by
            intro _
            have hp2 := hproj
            rw [List.map_append]
            simp only [List.map_cons, List.map_nil] at hp2 ⊢
            rw [joinSep_length_append_singleton _ (by simp)]
            omega)
        have harg1 : ((q :: g2) ++ [(pt, ps, pe)]).map (fun r => r.1)
            = (q :: g2).map (fun r => r.1) ++ [pt] := by simp
        have harg2 : (((q :: g2) ++ [(pt, ps, pe)]).head?).map (fun r => r.2.1)
            = some q.2.1 := by simp
        have harg3 : (((q :: g2) ++ [(pt, ps, pe)]).getLast?).map (fun r => r.2.2)
            = some pe := by rw [List.getLast?_concat]; rfl
        rw [harg1, harg2, harg3] at hIH
        refine ⟨hIH.ids_next, hIH.ids_map, hIH.groups, hIH.spans, hIH.chain, ?_, hIH.flds⟩
        intro c hc q1 hq1
        cases hq1
        exact hIH.lower c hc q (by simp)

/-! ## Top-level facts about `split_paragraphs` and `chunk_page` -/

theorem split_paragraphs_spec (text : Option Str) :
    (∀ q ∈ split_paragraphs text,
      (q.1 ≠ [] ∧ pyStrip q.1 = q.1) ∧
      (q.2.1 < q.2.2 ∧ q.2.2 ≤ (normNewlines (text.getD [])).length) ∧
      q.1 = pyStrip (((normNewlines (text.getD [])).drop q.2.1).take (q.2.2 - q.2.1))) ∧
    (split_paragraphs text).Pairwise (fun a b => a.2.2 ≤ b.2.1) := by
  have h := @splitGo_spec ((normNewlines (text.getD [])).length + 1)
    0 (normNewlines (text.getD [])) (by omega)
  constructor
  · intro q hq
    obtain ⟨h1, h2, h3⟩ := h.1 q hq
    refine ⟨h1, ⟨h2.2.1, by omega⟩, ?_⟩
    rw [h3]
    simp
  · exact h.2

theorem chunk_page_spec (text : Option Str) (pg : Nat) (src d ttl : Str)
    (s : Nat) :
    LoopOut (split_paragraphs text) ((normNewlines (text.getD [])).length)
      s d ttl src pg []
      (chunk_page text pg src d ttl s) := by
  have hsp := split_paragraphs_spec text
  unfold chunk_page
  by_cases hpar : split_paragraphs text = []
  · rw [if_pos hpar]
    exact ⟨by simp, by simp, by simp, by simp, by simp, by simp, by simp⟩
  · rw [if_neg hpar]
    by_cases hstrip : pyStrip (text.getD []) = []
    · rw [if_pos hstrip]
      exact ⟨by simp, by simp, by simp, by simp, by simp, by simp, by simp⟩
    · rw [if_neg hstrip]
      have hmain := chunkLoop_spec d ttl src pg (split_paragraphs text)
        ((normNewlines (text.getD [])).length) (split_paragraphs text) [] s
        (by
          intro q hq
          rw [List.nil_append] at hq
          obtain ⟨h1, _, _⟩ := hsp.1 q hq
          exact ⟨h1.1, noWSEdge_of_strip_fix h1.2⟩)
        (by intro q hq; rw [List.nil_append] at hq; exact hq)
        (by
          intro q hq
          rw [List.nil_append] at hq
          exact (hsp.1 q hq).2.1)
        (by rw [List.nil_append]; exact hsp.2)
        (by intro h2; simp at h2)
      simpa using hmain

/-- Identifier bookkeeping of `chunk_page`: the returned counter is the
start counter plus the number of chunks, and the emitted `chunk_id`s are
consecutive from the start counter. -/
theorem chunk_page_ids (text : Option Str) (pg : Nat) (src d ttl : Str)
    (s : Nat) :
    (chunk_page text pg src d ttl s).2
        = s + (chunk_page text pg src d ttl s).1.length ∧
    (chunk_page text pg src d ttl s).1.map ChunkRec.chunk_id
        = List.range' s (chunk_page text pg src d ttl s).1.length :=
  ⟨(chunk_page_spec text pg src d ttl s).ids_next,
   (chunk_page_spec text pg src d ttl s).ids_map⟩

/-- Identifier bookkeeping of the whole ingestion loop. -/
theorem processPages_ids (pages : List PageRec) : ∀ (s : Nat),
    (processPages pages s).2 = s + (processPages pages s).1.length ∧
    (processPages pages s).1.map ChunkRec.chunk_id
        = List.range' s (processPages pages s).1.length := by
  induction pages with
  | nil => intro s; simp [processPages]
  | cons p rest ih =>
    intro s
    have hp := chunk_page_ids p.text p.page p.source p.doc_id p.title s
    have hr := ih (chunk_page p.text p.page p.source p.doc_id p.title s).2
    simp only [processPages]
    constructor
    · rw [hr.1, hp.1]
      simp only [List.length_append]
      omega
    · rw [List.map_append, hp.2, hr.2, hp.1]
      simp only [List.length_append]
      rw [List.range'_append_1]
      rw [Nat.add_comm]

/-! ## `chunk_page` on concrete page shapes -/

/-- `chunk_page` on a page that is one whitespace-free paragraph: exactly
one chunk, emitted whole, spanning the whole text. -/
theorem chunk_page_plain {l : Str} (h : NoWSChar l) (hne : l ≠ [])
    (pg : Nat) (src d ttl : Str) (s : Nat) :
    chunk_page (some l) pg src d ttl s
      = ([{ doc_id := d, title := ttl, chunk_id := s, source := src,
            page := pg, text := l, char_start := 0, char_end := l.length }],
         s + 1) := by
  unfold chunk_page
  rw [split_paragraphs_plain h hne]
  rw [if_neg (by simp)]
  have hstrip : pyStrip l = l := pyStrip_eq_self h.noWSEdge
  rw [show (some l).getD [] = l from rfl, hstrip, if_neg hne]
  rw [show chunkLoop d ttl src pg [(l, 0, l.length)] [] none none s
      = chunkLoop d ttl src pg [] [l] (some 0) (some l.length) s by
    simp [chunkLoop]]
  rw [show chunkLoop d ttl src pg [] [l] (some 0) (some l.length) s
      = match flushAcc d ttl src pg [l] (some 0) (some l.length) s with
        | (none, c) => ([], c)
        | (some ch, c) => ([ch], c) from rfl]
  rw [flushAcc_cons (by simpa using ⟨hne, h.noWSEdge⟩)]
  rfl

theorem strip_ne_nil_of_paragraphs {text : Option Str}
    (h : split_paragraphs text ≠ []) : pyStrip (text.getD []) ≠ [] := by
  obtain ⟨q, hq⟩ : ∃ q, q ∈ split_paragraphs text := by
    cases hsp : split_paragraphs text with
    | nil => exact absurd hsp h
    | cons a b => exact ⟨a, hsp.symm ▸ List.mem_cons_self a b⟩
  obtain ⟨⟨hne, hfix⟩, _, hslice⟩ := (split_paragraphs_spec text).1 q hq
  obtain ⟨a, b, hq1⟩ : ∃ a b, q.1 = a :: b := by
    cases hq1 : q.1 with
    | nil => exact absurd hq1 hne
    | cons a b => exact ⟨a, b, rfl⟩
  have hedge := noWSEdge_of_strip_fix hfix
  have hws : isWS a = false := hedge.1 a (by rw [hq1]; rfl)
  have hch : a ∈ q.1 := by rw [hq1]; simp
  have hmem3 : a ∈ normNewlines (text.getD []) := by
    have h1 : a ∈ pyStrip (((normNewlines (text.getD [])).drop q.2.1).take
        (q.2.2 - q.2.1)) := by rw [← hslice]; exact hch
    have h2 := mem_pyStrip h1
    have h3 := List.take_subset _ _ h2
    exact List.drop_subset _ _ h3
  have hmem4 : a ∈ text.getD [] := mem_normNewlines hmem3
  exact pyStrip_ne_nil_of_mem hmem4 hws

/-! ## The four noise rules, as worded in the spec -/

/-- Rule 1 as worded in the spec: case-insensitive containment of any of
the tokens `isbn`, `issn`, `doi`, `urn:` anywhere in the chunk. -/
def noiseRule1 (text : Str) : Prop :=
  containsSub "isbn".toList (pyLower text) = true
    ∨ containsSub "issn".toList (pyLower text) = true
    ∨ containsSub "doi".toList (pyLower text) = true
    ∨ containsSub "urn:".toList (pyLower text) = true

/-- Rule 2 as worded in the spec: the case-insensitive text `sources`
appearing within the first 50 characters. -/
def noiseRule2 (text : Str) : Prop :=
  containsSub "sources".toList ((pyLower text).take 50) = true

/-- Rule 3 as worded in the spec: two or more occurrences, summed across
the literals `http://`, `https://`, `www.`. -/
def noiseRule3 (text : Str) : Prop :=
  2 ≤ subCount "http://".toList (pyLower text)
    + subCount "https://".toList (pyLower text)
    + subCount "www.".toList (pyLower text)

/-- Rule 4 as worded in the spec: trimmed chunk length below the minimum
content threshold of 150 characters. -/
def noiseRule4 (text : Str) : Prop :=
  (pyStrip text).length < 150

instance (text : Str) : Decidable (noiseRule1 text) := by
  unfold noiseRule1; infer_instance

instance (text : Str) : Decidable (noiseRule2 text) := by
  unfold noiseRule2; infer_instance

instance (text : Str) : Decidable (noiseRule3 text) := by
  unfold noiseRule3; infer_instance

instance (text : Str) : Decidable (noiseRule4 text) := by
  unfold noiseRule4; infer_instance

theorem is_noise_iff_rules (text : Str) :
    is_noise text = true
      ↔ noiseRule1 text ∨ noiseRule2 text ∨ noiseRule3 text ∨ noiseRule4 text := by
  unfold is_noise noiseRule1 noiseRule2 noiseRule3 noiseRule4
  by_cases c1 : (containsSub "isbn".toList (pyLower text)
      || containsSub "issn".toList (pyLower text)
      || containsSub "doi".toList (pyLower text)
      || containsSub "urn:".toList (pyLower text)) = true <;>
  by_cases c2 : containsSub "sources".toList ((pyLower text).take 50) = true <;>
  by_cases c3 : 2 ≤ subCount "http://".toList (pyLower text)
      + subCount "https://".toList (pyLower text)
      + subCount "www.".toList (pyLower text) <;>
  by_cases c4 : (pyStrip text).length < 150
  all_goals simp_all [Bool.or_eq_true]
  all_goals tauto

theorem pyStrip_length_le (l : Str) : (pyStrip l).length ≤ l.length := by
  unfold pyStrip
  have h1 : (l.dropWhile isWS).length ≤ l.length :=
    (List.dropWhile_suffix isWS).length_le
  have h2 : ((l.dropWhile isWS).reverse.dropWhile isWS).length
      ≤ (l.dropWhile isWS).reverse.length :=
    (List.dropWhile_suffix isWS).length_le
  simp only [List.length_reverse] at h2 ⊢
  omega

theorem is_noise_of_short {text : Str} (h : (pyStrip text).length < 150) :
    is_noise text = true := by
  rw [is_noise_iff_rules]
  exact Or.inr (Or.inr (Or.inr h))

/-! ## The greedy grouping policy, as worded in the spec -/

/-- Modelled from the spec's words (§4.1, paragraph-aggregating policy):
greedily accumulate consecutive paragraphs into a chunk until adding the
next paragraph would exceed `MAX_CHARS_PER_CHUNK`; at that point emit the
accumulated chunk and start a new one with the paragraph that did not
fit.  A single paragraph longer than the limit is still emitted whole. -/
def specGreedy (acc : List Str) : List Str → List (List Str)
  | [] => if acc = [] then [] else [acc]
  | p :: rest =>
    if acc = [] then specGreedy [p] rest
    else if (joinSep acc).length + 2 + p.length > MAX_CHARS_PER_CHUNK then
      acc :: specGreedy [p] rest
    else specGreedy (acc ++ [p]) rest

/-- The texts of the chunks emitted by the loop of `chunk_page` are
exactly the joins of the groups formed by the spec's greedy policy. -/
theorem chunkLoop_texts (d ttl src : Str) (pg : Nat) :
    ∀ (rest : List (Str × Nat × Nat)), ∀ (g : List (Str × Nat × Nat)) (cid : Nat),
    (∀ q ∈ g ++ rest, q.1 ≠ [] ∧ NoWSEdge q.1) →
    (chunkLoop d ttl src pg rest (g.map (fun r => r.1))
        ((g.head?).map (fun r => r.2.1)) ((g.getLast?).map (fun r => r.2.2)) cid).1.map
          (fun c => c.text)
      = (specGreedy (g.map (fun r => r.1)) (rest.map (fun r => r.1))).map joinSep := by
  intro rest
  induction rest with
  | nil =>
    intro g cid hgood
    rw [List.append_nil] at hgood
    cases g with
    | nil => simp [chunkLoop, flushAcc, specGreedy]
    | cons q g2 =>
      obtain ⟨qn, hqn⟩ : ∃ qn, (q :: g2).getLast? = some qn :=
        ⟨(q :: g2).getLast (by simp), List.getLast?_eq_getLast _ _⟩
      rw [hqn]
      simp only [List.map_cons, List.head?_cons, Option.map_some', List.map_nil]
      rw [show chunkLoop d ttl src pg [] (q.1 :: g2.map (fun r => r.1))
          (some q.2.1) (some qn.2.2) cid
        = match flushAcc d ttl src pg (q.1 :: g2.map (fun r => r.1))
            (some q.2.1) (some qn.2.2) cid with
          | (none, c) => ([], c)
          | (some ch, c) => ([ch], c) from rfl]
      rw [flushAcc_cons (by
        intro x hx
        rw [show q.1 :: List.map (fun r => r.1) g2
            = (q :: g2).map (fun r => r.1) from rfl] at hx
        rw [List.mem_map] at hx
        obtain ⟨r, hr, hrx⟩ := hx
        subst hrx
        exact hgood r hr)]
      simp [specGreedy]
  | cons p rest2 ih =>
    intro g cid hgood
    obtain ⟨pt, ps, pe⟩ := p
    cases g with
    | nil =>
      rw [show chunkLoop d ttl src pg ((pt, ps, pe) :: rest2)
          (([] : List (Str × Nat × Nat)).map (fun r => r.1))
          ((([] : List (Str × Nat × Nat)).head?).map (fun r => r.2.1))
          ((([] : List (Str × Nat × Nat)).getLast?).map (fun r => r.2.2)) cid
        = chunkLoop d ttl src pg rest2 [pt] (some ps) (some pe) cid by
          simp [chunkLoop]]
      have hIH := ih [(pt, ps, pe)] cid (fun r hr => hgood r hr)
      simp only [List.map_cons, List.map_nil, List.head?_cons,
        Option.map_some'] at hIH
      rw [show ([(pt, ps, pe)] : List (Str × Nat × Nat)).getLast? = some (pt, ps, pe)
        from rfl] at hIH
      simp only [Option.map_some'] at hIH
      rw [hIH]
      simp [specGreedy]
    | cons q g2 =>
      obtain ⟨qn, hqn⟩ : ∃ qn, (q :: g2).getLast? = some qn :=
        ⟨(q :: g2).getLast (by simp), List.getLast?_eq_getLast _ _⟩
      have hparts : ∀ x ∈ (q :: g2).map (fun r => r.1), x ≠ [] ∧ NoWSEdge x := by
        intro x hx
        rw [List.mem_map] at hx
        obtain ⟨r, hr, hrx⟩ := hx
        subst hrx
        exact hgood r (List.mem_append.mpr (Or.inl hr))
      by_cases hproj : (joinSep ((q :: g2).map (fun r => r.1))).length + 2 + pt.length
          > MAX_CHARS_PER_CHUNK
      · have hout : chunkLoop d ttl src pg ((pt, ps, pe) :: rest2)
            ((q :: g2).map (fun r => r.1))
            (((q :: g2).head?).map (fun r => r.2.1))
            (((q :: g2).getLast?).map (fun r => r.2.2)) cid
            = (({ doc_id := d, title := ttl, chunk_id := cid, source := src,
                  page := pg, text := joinSep ((q :: g2).map (fun r => r.1)),
                  char_start := q.2.1, char_end := qn.2.2 } : ChunkRec)
                :: (chunkLoop d ttl src pg rest2 [pt] (some ps) (some pe) (cid + 1)).1,
               (chunkLoop d ttl src pg rest2 [pt] (some ps) (some pe) (cid + 1)).2) := by
          rw [hqn]
          simp only [List.map_cons, List.head?_cons, Option.map_some']
          simp only [chunkLoop]
          rw [if_neg (by simp)]
          rw [if_pos (by simpa using hproj)]
          rw [flushAcc_cons (by simpa using hparts)]
          simp [Option.toList]
        rw [hout]
        have hIH := ih [(pt, ps, pe)] (cid + 1)
          (fun r hr => hgood r (List.mem_append.mpr (Or.inr hr)))
        simp only [List.map_cons, List.map_nil, List.head?_cons,
          Option.map_some'] at hIH
        rw [show ([(pt, ps, pe)] : List (Str × Nat × Nat)).getLast? = some (pt, ps, pe)
          from rfl] at hIH
        simp only [Option.map_some'] at hIH
        simp only [List.map_cons]
        rw [hIH]
        rw [show specGreedy (q.1 :: g2.map (fun r => r.1)) (pt :: rest2.map (fun r => r.1))
          = if (q.1 :: g2.map (fun r => r.1)) = []
            then specGreedy [pt] (rest2.map (fun r => r.1))
            else if (joinSep (q.1 :: g2.map (fun r => r.1))).length + 2 + pt.length
                > MAX_CHARS_PER_CHUNK
              then (q.1 :: g2.map (fun r => r.1))
                :: specGreedy [pt] (rest2.map (fun r => r.1))
              else specGreedy ((q.1 :: g2.map (fun r => r.1)) ++ [pt])
                (rest2.map (fun r => r.1)) from rfl]
        rw [if_neg (by simp), if_pos (by simpa using hproj)]
        simp
      · have hout : chunkLoop d ttl src pg ((pt, ps, pe) :: rest2)
            ((q :: g2).map (fun r => r.1))
            (((q :: g2).head?).map (fun r => r.2.1))
            (((q :: g2).getLast?).map (fun r => r.2.2)) cid
            = chunkLoop d ttl src pg rest2
              ((q :: g2).map (fun r => r.1) ++ [pt])
              (some q.2.1) (some pe) cid := by
          rw [hqn]
          simp only [List.map_cons, List.head?_cons, Option.map_some']
          simp only [chunkLoop]
          rw [if_neg (by simp)]
          rw [if_neg (by simpa using hproj)]
        rw [hout]
        have hglist : ((q :: g2) ++ [(pt, ps, pe)]) ++ rest2
            = (q :: g2) ++ (pt, ps, pe) :: rest2 := by simp
        have hIH := ih ((q :: g2) ++ [(pt, ps, pe)]) cid
          (by rw [hglist]; exact hgood)
        have harg1 : ((q :: g2) ++ [(pt, ps, pe)]).map (fun r => r.1)
            = (q :: g2).map (fun r => r.1) ++ [pt] := by simp
        have harg2 : (((q :: g2) ++ [(pt, ps, pe)]).head?).map (fun r => r.2.1)
            = some q.2.1 := by simp
        have harg3 : (((q :: g2) ++ [(pt, ps, pe)]).getLast?).map (fun r => r.2.2)
            = some pe := by rw [List.getLast?_concat]; rfl
        rw [harg1, harg2, harg3] at hIH
        rw [hIH]
        simp only [List.map_cons]
        rw [show specGreedy (q.1 :: g2.map (fun r => r.1)) (pt :: rest2.map (fun r => r.1))
          = if (q.1 :: g2.map (fun r => r.1)) = []
            then specGreedy [pt] (rest2.map (fun r => r.1))
            else if (joinSep (q.1 :: g2.map (fun r => r.1))).length + 2 + pt.length
                > MAX_CHARS_PER_CHUNK
              then (q.1 :: g2.map (fun r => r.1))
                :: specGreedy [pt] (rest2.map (fun r => r.1))
              else specGreedy ((q.1 :: g2.map (fun r => r.1)) ++ [pt])
                (rest2.map (fun r => r.1)) from rfl]
        rw [if_neg (by simp), if_neg (by simpa using hproj)]

/-- The chunk texts of `chunk_page` refine the spec's greedy grouping of
the page's paragraph texts. -/
theorem chunk_page_texts (text : Option Str) (pg : Nat) (src d ttl : Str)
    (s : Nat) :
    (chunk_page text pg src d ttl s).1.map (fun c => c.text)
      = (specGreedy [] ((split_paragraphs text).map (fun r => r.1))).map joinSep := by
  unfold chunk_page
  by_cases hpar : split_paragraphs text = []
  · rw [if_pos hpar, hpar]
    simp [specGreedy]
  · rw [if_neg hpar]
    rw [if_neg (strip_ne_nil_of_paragraphs hpar)]
    have h := chunkLoop_texts d ttl src pg (split_paragraphs text) [] s
      (by
        intro q hq
        rw [List.nil_append] at hq
        obtain ⟨h1, _, _⟩ := (split_paragraphs_spec text).1 q hq
        exact ⟨h1.1, noWSEdge_of_strip_fix h1.2⟩)
    simpa using h

/-! ## Concrete multi-paragraph pages -/

theorem no_cr_of_noWS_sep2 {x y : Str} (hx : NoWSChar x) (hy : NoWSChar y) :
    ∀ ch ∈ x ++ '\n' :: '\n' :: y, ¬ch = '\r' := by
  intro ch hch hcr
  subst hcr
  rcases List.mem_append.mp hch with h1 | h1
  · have := hx _ h1
    simp [isWS] at this
  · rcases List.mem_cons.mp h1 with h2 | h2
    · cases h2
    · rcases List.mem_cons.mp h2 with h3 | h3
      · cases h3
      · have := hy _ h3
        simp [isWS] at this

theorem split_paragraphs_two {x y : Str}
    (hx : NoWSChar x) (hy : NoWSChar y) (hxne : x ≠ []) (hyne : y ≠ []) :
    split_paragraphs (some (x ++ '\n' :: '\n' :: y))
      = [(x, 0, x.length), (y, x.length + 2, x.length + 2 + y.length)] := by
  obtain ⟨cy, y2, hy2⟩ : ∃ c t, y = c :: t := by
    cases y with
    | nil => exact absurd rfl hyne
    | cons c t => exact ⟨c, t, rfl⟩
  subst hy2
  have hnorm : normNewlines (x ++ '\n' :: '\n' :: cy :: y2)
      = x ++ '\n' :: '\n' :: cy :: y2 :=
    normNewlines_of_no_cr (no_cr_of_noWS_sep2 hx hy)
  unfold split_paragraphs
  simp only [Option.getD_some, hnorm]
  rw [splitGo_append_sep (fun a ha => hx.no_nl a ha) (hy cy (by simp))
    (by omega)]
  rw [pyStrip_eq_self hx.noWSEdge, if_neg hxne]
  rw [splitGo_plain (fun a ha => hy a ha) (by simp) (by omega)]
  simp [List.length_cons]

theorem split_paragraphs_three {x y z : Str}
    (hx : NoWSChar x) (hy : NoWSChar y) (hz : NoWSChar z)
    (hxne : x ≠ []) (hyne : y ≠ []) (hzne : z ≠ []) :
    split_paragraphs (some (x ++ '\n' :: '\n' :: (y ++ '\n' :: '\n' :: z)))
      = [(x, 0, x.length),
         (y, x.length + 2, x.length + 2 + y.length),
         (z, x.length + y.length + 4, x.length + y.length + 4 + z.length)] := by
  obtain ⟨cy, y2, hy2⟩ : ∃ c t, y = c :: t := by
    cases y with
    | nil => exact absurd rfl hyne
    | cons c t => exact ⟨c, t, rfl⟩
  obtain ⟨cz, z2, hz2⟩ : ∃ c t, z = c :: t := by
    cases z with
    | nil => exact absurd rfl hzne
    | cons c t => exact ⟨c, t, rfl⟩
  have hnorm : normNewlines (x ++ '\n' :: '\n' :: (y ++ '\n' :: '\n' :: z))
      = x ++ '\n' :: '\n' :: (y ++ '\n' :: '\n' :: z) := by
    apply normNewlines_of_no_cr
    intro ch hch hcr
    subst hcr
    rcases List.mem_append.mp hch with h1 | h1
    · have := hx _ h1
      simp [isWS] at this
    · rcases List.mem_cons.mp h1 with h2 | h2
      · cases h2
      · rcases List.mem_cons.mp h2 with h3 | h3
        · cases h3
        · rcases List.mem_append.mp h3 with h4 | h4
          · have := hy _ h4
            simp [isWS] at this
          · rcases List.mem_cons.mp h4 with h5 | h5
            · cases h5
            · rcases List.mem_cons.mp h5 with h6 | h6
              · cases h6
              · have := hz _ h6
                simp [isWS] at this
  unfold split_paragraphs
  simp only [Option.getD_some, hnorm]
  have hshape : y ++ '\n' :: '\n' :: z = cy :: (y2 ++ '\n' :: '\n' :: z) := by
    rw [hy2]
    rfl
  rw [show x ++ '\n' :: '\n' :: (y ++ '\n' :: '\n' :: z)
      = x ++ '\n' :: '\n' :: cy :: (y2 ++ '\n' :: '\n' :: z) by rw [hshape]]
  rw [splitGo_append_sep (fun a ha => hx.no_nl a ha)
    (by rw [hy2] at hy; exact hy cy (by simp)) (by omega)]
  rw [pyStrip_eq_self hx.noWSEdge, if_neg hxne]
  rw [show (cy :: (y2 ++ '\n' :: '\n' :: z)) = (cy :: y2) ++ '\n' :: '\n' :: z
    from by simp]
  rw [show (cy :: y2) ++ '\n' :: '\n' :: z = (cy :: y2) ++ '\n' :: '\n' :: cz :: z2
    from by rw [hz2]]
  rw [splitGo_append_sep
    (by rw [hy2] at hy; exact fun a ha => hy.no_nl a ha)
    (by rw [hz2] at hz; exact hz cz (by simp)) (by omega)]
  rw [show pyStrip (cy :: y2) = cy :: y2 from by
    rw [hy2] at hy
    exact pyStrip_eq_self hy.noWSEdge]
  rw [if_neg (by simp)]
  rw [splitGo_plain (by rw [hz2] at hz; exact fun a ha => hz a ha) (by simp)
    (by omega)]
  rw [hy2, hz2]
  simp [List.length_cons]
  all_goals omega

/-- `chunk_page` on a page of three 300-character paragraphs: the first two
are grouped (602 characters joined), the third starts a new chunk, because
adding it would give 904 > 800 characters. -/
theorem chunk_page_three300 (pg : Nat) (src d ttl : Str) (s : Nat) :
    chunk_page (some (List.replicate 300 'a' ++ '\n' :: '\n' ::
        (List.replicate 300 'a' ++ '\n' :: '\n' :: List.replicate 300 'a')))
      pg src d ttl s
      = ([{ doc_id := d, title := ttl, chunk_id := s, source := src, page := pg,
            text := joinSep [List.replicate 300 'a', List.replicate 300 'a'],
            char_start := 0, char_end := 602 },
          { doc_id := d, title := ttl, chunk_id := s + 1, source := src, page := pg,
            text := List.replicate 300 'a', char_start := 604, char_end := 904 }],
         s + 2) := by
  have hA : NoWSChar (List.replicate 300 'a') := noWSChar_replicate _ (by decide)
  have hAne : (List.replicate 300 'a') ≠ [] := by simp
  have hsplit := split_paragraphs_three hA hA hA hAne hAne hAne
  simp only [List.length_replicate] at hsplit
  unfold chunk_page
  rw [hsplit]
  rw [if_neg (by simp)]
  rw [if_neg (by
    apply strip_ne_nil_of_paragraphs
    rw [hsplit]
    simp)]
  rfl

/-! ## Coverage of character indices by chunk spans

Formalisation device for the fixed-window coverage property stated in the
spec: the union of the spans `[char_start, char_end)` of `cs` covers
`[0, n)`. -/

def coversRange (cs : List ChunkRec) (n : Nat) : Bool :=
  (List.range n).all (fun k =>
    cs.any (fun c => decide (c.char_start ≤ k) && decide (k < c.char_end)))

/-! ## The claims -/

/-- Claim C9: for every input text (including `None` and the empty text)
and every starting counter value `s`, `chunk_page` returns a pair
`(chunks, next_id)` with `next_id = s + length chunks`, the `chunk_id`
fields of the returned chunks are exactly `s, s+1, …, next_id − 1` in
order, and in particular the counter is returned unchanged when no chunks
are emitted. -/
theorem claim_c9_chunk_page_counter (text : Option Str) (pg : Nat)
    (src d ttl : Str) (s : Nat) :
    (chunk_page text pg src d ttl s).2
        = s + (chunk_page text pg src d ttl s).1.length
    ∧ (chunk_page text pg src d ttl s).1.map ChunkRec.chunk_id
        = List.range' s (chunk_page text pg src d ttl s).1.length
    ∧ ((chunk_page text pg src d ttl s).1 = []
        → (chunk_page text pg src d ttl s).2 = s) := by
  obtain ⟨h1, h2⟩ := chunk_page_ids text pg src d ttl s
  refine ⟨h1, h2, ?_⟩
  intro hnil
  rw [h1, hnil]
  rfl

theorem claim_c9_witness :
    (chunk_page none 1 [] [] [] 3).2 = 3 + (chunk_page none 1 [] [] [] 3).1.length
    ∧ ((chunk_page none 1 [] [] [] 3).1 = [] → (chunk_page none 1 [] [] [] 3).2 = 3) :=
  ⟨(claim_c9_chunk_page_counter none 1 [] [] [] 3).1,
   (claim_c9_chunk_page_counter none 1 [] [] [] 3).2.2⟩

/-- Claim C3: over any ordered sequence of pages from any number of
documents, the `chunk_id` values of all emitted chunks, in emission order,
are consecutive (strictly increasing with no gaps) starting from the
initial counter value, never reset across pages or documents; `main`
starts the counter at 0. -/
theorem claim_c3_global_chunk_ids (pages : List PageRec) (s : Nat) :
    (processPages pages s).1.map ChunkRec.chunk_id
        = List.range' s (processPages pages s).1.length
    ∧ (processPages pages s).2 = s + (processPages pages s).1.length
    ∧ (chunkPagesMain pages).1.map ChunkRec.chunk_id
        = List.range' 0 (chunkPagesMain pages).1.length :=
  ⟨(processPages_ids pages s).2, (processPages_ids pages s).1,
   (processPages_ids pages 0).2⟩

/-- Claim C5: every chunk record emitted by the chunker satisfies
`0 ≤ char_start < char_end ≤ len(page_text)`, measured against the page
text as supplied. -/
theorem claim_c5_chunk_offsets (text : Option Str) (pg : Nat)
    (src d ttl : Str) (s : Nat) :
    ∀ c ∈ (chunk_page text pg src d ttl s).1,
      0 ≤ c.char_start ∧ c.char_start < c.char_end
        ∧ c.char_end ≤ (text.getD []).length := by
  intro c hc
  have h := (chunk_page_spec text pg src d ttl s).spans c hc
  have h2 := normNewlines_length_le (text.getD [])
  exact ⟨Nat.zero_le _, h.1, by omega⟩

theorem claim_c5_witness :
    ({ doc_id := [], title := [], chunk_id := 0, source := [], page := 1,
       text := List.replicate 5 'a', char_start := 0, char_end := 5 } : ChunkRec)
        ∈ (chunk_page (some (List.replicate 5 'a')) 1 [] [] [] 0).1
    ∧ (0 ≤ 0 ∧ 0 < 5 ∧ 5 ≤ ((some (List.replicate 5 'a')).getD []).length) :=
  ⟨by decide,
   claim_c5_chunk_offsets (some (List.replicate 5 'a')) 1 [] [] [] 0
     { doc_id := [], title := [], chunk_id := 0, source := [], page := 1,
       text := List.replicate 5 'a', char_start := 0, char_end := 5 }
     (by decide)⟩

/-- Claim C2 (counterexample): the repository's chunker (`chunk_page`, its
only splitting policy) does not satisfy the fixed-window coverage
property.  On the page text `"a\n"` it emits a single chunk spanning
`[0, 1)` while the text has length 2, so the union of the emitted spans
does not cover `[0, len(text))`; no fixed-window-with-overlap variant or
configuration switch exists in the code. -/
theorem claim_c2_counterexample :
    (chunk_page (some ("a\n".toList)) 1 [] [] [] 0).1
      = [{ doc_id := [], title := [], chunk_id := 0, source := [], page := 1,
           text := "a".toList, char_start := 0, char_end := 1 }]
    ∧ ("a\n".toList).length = 2
    ∧ coversRange (chunk_page (some ("a\n".toList)) 1 [] [] [] 0).1
        ("a\n".toList).length = false := by
  decide

/-- Claim C2 (amended): the chunker implements only the
paragraph-aggregating policy; emitted chunk spans never overlap —
consecutive chunks satisfy `char_end ≤ char_start` of the next — so no
window overlap of `OVERLAP > 0` characters ever occurs, and (per the
counterexample) the union of spans need not cover `[0, len(text))`. -/
theorem claim_c2_amended_disjoint_spans (text : Option Str) (pg : Nat)
    (src d ttl : Str) (s : Nat) :
    ((chunk_page text pg src d ttl s).1).Chain'
      (fun a b => a.char_end ≤ b.char_start) :=
  (chunk_page_spec text pg src d ttl s).chain

/-- Claim C6 (counterexample): a 200-character chunk containing no trigger
substring (none of rules 1–3 match) can still be noise, because rule 4
measures the trimmed length: 10 letters padded with 190 spaces trim to
length 10 < 150. -/
theorem claim_c6_counterexample :
    (List.replicate 10 'a' ++ List.replicate 190 ' ').length = 200
    ∧ ¬noiseRule1 (List.replicate 10 'a' ++ List.replicate 190 ' ')
    ∧ ¬noiseRule2 (List.replicate 10 'a' ++ List.replicate 190 ' ')
    ∧ ¬noiseRule3 (List.replicate 10 'a' ++ List.replicate 190 ' ')
    ∧ is_noise (List.replicate 10 'a' ++ List.replicate 190 ' ') = true := by
  decide

/-- Claim C6 (amended): `is_noise` returns true iff at least one of the
four rules matches; a 100-character chunk is always noise; and a chunk
whose **trimmed** length is at least 150 with no rule-1/2/3 trigger is
never noise (the original "200-character chunk" wording fails when the
padding is whitespace, since rule 4 trims first). -/
theorem claim_c6_amended_noise_rules (t : Str) :
    (is_noise t = true ↔ noiseRule1 t ∨ noiseRule2 t ∨ noiseRule3 t ∨ noiseRule4 t)
    ∧ (t.length = 100 → is_noise t = true)
    ∧ (150 ≤ (pyStrip t).length → ¬noiseRule1 t → ¬noiseRule2 t → ¬noiseRule3 t
        → is_noise t = false) := by
  refine ⟨is_noise_iff_rules t, ?_, ?_⟩
  · intro hlen
    apply is_noise_of_short
    have := pyStrip_length_le t
    omega
  · intro h150 h1 h2 h3
    have hne : ¬is_noise t = true := by
      rw [is_noise_iff_rules]
      rintro (h | h | h | h)
      · exact h1 h
      · exact h2 h
      · exact h3 h
      · unfold noiseRule4 at h
        omega
    cases hb : is_noise t with
    | false => rfl
    | true => exact absurd hb hne

theorem claim_c6_witness :
    ((List.replicate 100 'x').length = 100
      ∧ is_noise (List.replicate 100 'x') = true)
    ∧ (150 ≤ (pyStrip (List.replicate 200 'a')).length
      ∧ ¬noiseRule1 (List.replicate 200 'a')
      ∧ ¬noiseRule2 (List.replicate 200 'a')
      ∧ ¬noiseRule3 (List.replicate 200 'a')
      ∧ is_noise (List.replicate 200 'a') = false) :=
  ⟨⟨by decide, (claim_c6_amended_noise_rules _).2.1 (by decide)⟩,
   ⟨by decide, by decide, by decide, by decide,
    (claim_c6_amended_noise_rules _).2.2 (by decide) (by decide) (by decide)
      (by decide)⟩⟩

/-- Claim C7: the paragraph-aggregating chunker accumulates consecutive
paragraphs greedily and flushes exactly when adding the next paragraph
would exceed `MAX_CHARS_PER_CHUNK`, starting the new chunk with the
paragraph that did not fit — its chunk texts are exactly the `"\n\n"`-joins
of the greedy groups (`specGreedy`, worded from the spec); a single
paragraph is emitted whole; hence three 300-character paragraphs with
limit 800 yield exactly 2 chunks, and a lone 1000-character paragraph
yields exactly 1 chunk. -/
theorem claim_c7_greedy_flush_policy :
    (∀ (text : Option Str) (pg : Nat) (src d ttl : Str) (s : Nat),
      (chunk_page text pg src d ttl s).1.map (fun c => c.text)
        = (specGreedy [] ((split_paragraphs text).map (fun r => r.1))).map joinSep)
    ∧ (∀ (text : Option Str) (pg : Nat) (src d ttl : Str) (s : Nat)
        (p : Str) (a b : Nat),
        split_paragraphs text = [(p, a, b)]
        → (chunk_page text pg src d ttl s).1.map (fun c => c.text) = [p])
    ∧ (chunk_page (some (List.replicate 300 'a' ++ '\n' :: '\n' ::
          (List.replicate 300 'a' ++ '\n' :: '\n' :: List.replicate 300 'a')))
        1 [] [] [] 0).1.length = 2
    ∧ (chunk_page (some (List.replicate 1000 'a')) 1 [] [] [] 0).1
        = [{ doc_id := [], title := [], chunk_id := 0, source := [], page := 1,
             text := List.replicate 1000 'a', char_start := 0,
             char_end := 1000 }] := by
  refine ⟨chunk_page_texts, ?_, ?_, ?_⟩
  · intro text pg src d ttl s p a b hsp
    rw [chunk_page_texts, hsp]
    rfl
  · rw [chunk_page_three300]
    rfl
  · rw [chunk_page_plain (noWSChar_replicate _ (by decide)) (by simp)]
    simp

theorem claim_c7_witness :
    split_paragraphs (some (List.replicate 5 'a')) = [(List.replicate 5 'a', 0, 5)]
    ∧ (chunk_page (some (List.replicate 5 'a')) 1 [] [] [] 0).1.map (fun c => c.text)
        = [List.replicate 5 'a'] :=
  ⟨by decide,
   claim_c7_greedy_flush_policy.2.1 (some (List.replicate 5 'a')) 1 [] [] [] 0
     (List.replicate 5 'a') 0 5 (by decide)⟩

/-- Claim C10: a chunk whose text exceeds `MAX_CHARS_PER_CHUNK` (800) is
always a single paragraph of the page — it is literally one of the
paragraphs produced by `split_paragraphs`, spans included; equivalently,
every chunk built from two or more paragraphs stays within the limit,
counting the two-character separators. -/
theorem claim_c10_oversize_chunk_is_single_paragraph (text : Option Str)
    (pg : Nat) (src d ttl : Str) (s : Nat) :
    ∀ c ∈ (chunk_page text pg src d ttl s).1,
      MAX_CHARS_PER_CHUNK < c.text.length
      → (c.text, c.char_start, c.char_end) ∈ split_paragraphs text := by
  intro c hc hlen
  obtain ⟨h, q1, qn, hne, hmem, hhead, hlast, htext, hcs, hce, hsize⟩ :=
    (chunk_page_spec text pg src d ttl s).groups c hc
  have hlen1 : h.length < 2 := by
    by_contra h2
    have := hsize (by omega)
    omega
  cases h with
  | nil => exact absurd rfl hne
  | cons a rest =>
    cases rest with
    | nil =>
      have hq1 : a = q1 := by
        rw [show ([a] : List (Str × Nat × Nat)).head? = some a from rfl] at hhead
        injection hhead
      have hqn : a = qn := by
        rw [show ([a] : List (Str × Nat × Nat)).getLast? = some a from rfl] at hlast
        injection hlast
      subst hq1
      have hceq : (c.text, c.char_start, c.char_end) = a := by
        rw [htext, hcs, hce, ← hqn]
        rfl
      rw [hceq]
      exact hmem a (by simp)
    | cons b rest2 =>
      exfalso
      simp only [List.length_cons] at hlen1
      omega

theorem claim_c10_witness :
    ({ doc_id := [], title := [], chunk_id := 0, source := [], page := 1,
       text := List.replicate 801 'a', char_start := 0,
       char_end := 801 } : ChunkRec)
      ∈ (chunk_page (some (List.replicate 801 'a')) 1 [] [] [] 0).1
    ∧ MAX_CHARS_PER_CHUNK < (List.replicate 801 'a').length
    ∧ (List.replicate 801 'a', 0, 801)
        ∈ split_paragraphs (some (List.replicate 801 'a')) := by
  have hA : NoWSChar (List.replicate 801 'a') := noWSChar_replicate _ (by decide)
  have hmem : ({ doc_id := [], title := [], chunk_id := 0, source := [],
                 page := 1, text := List.replicate 801 'a', char_start := 0,
                 char_end := 801 } : ChunkRec)
      ∈ (chunk_page (some (List.replicate 801 'a')) 1 [] [] [] 0).1 := by
    rw [chunk_page_plain hA (by simp)]
    simp
  refine ⟨hmem, by simp [MAX_CHARS_PER_CHUNK], ?_⟩
  exact claim_c10_oversize_chunk_is_single_paragraph
    (some (List.replicate 801 'a')) 1 [] [] [] 0 _ hmem
    (by simp [MAX_CHARS_PER_CHUNK])

/-- Claim C4 (counterexample): stored text does not always round-trip from
the recorded offsets.  On the page `"aaa\n \nbbb"` the two paragraphs are
joined into one chunk with text `"aaa\n\nbbb"` and span `[0, 9)`, but the
trimmed slice of the page text over that span is `"aaa\n \nbbb"`, which
differs (the blank-line separator's extra space is normalised away in the
stored text). -/
theorem claim_c4_counterexample :
    (chunk_page (some ("aaa\n \nbbb".toList)) 1 [] [] [] 0).1
      = [{ doc_id := [], title := [], chunk_id := 0, source := [], page := 1,
           text := "aaa\n\nbbb".toList, char_start := 0, char_end := 9 }]
    ∧ pyStrip ((("aaa\n \nbbb".toList).drop 0).take (9 - 0)) = "aaa\n \nbbb".toList
    ∧ "aaa\n \nbbb".toList ≠ "aaa\n\nbbb".toList := by
  decide

/-- Claim C4 (amended): every chunk of the paragraph-aggregating policy is
the `"\n\n"`-join of a non-empty group of paragraphs whose spans delimit
the chunk's `char_start`/`char_end` (in the `\r\n`-normalised page text);
each individual paragraph round-trips — trimming its span's slice yields
exactly the paragraph text — and for single-paragraph chunks the trimmed
slice of the chunk's own span equals the stored text.  For
multi-paragraph chunks the trimmed whole-span slice can differ from the
stored text, as the counterexample shows. -/
theorem claim_c4_amended_roundtrip (text : Option Str) (pg : Nat)
    (src d ttl : Str) (s : Nat) :
    ∀ c ∈ (chunk_page text pg src d ttl s).1,
      ∃ h : List (Str × Nat × Nat), h ≠ []
        ∧ (∀ q ∈ h, q ∈ split_paragraphs text
            ∧ pyStrip (((normNewlines (text.getD [])).drop q.2.1).take
                (q.2.2 - q.2.1)) = q.1)
        ∧ c.text = joinSep (h.map (fun q => q.1))
        ∧ (∃ q1, h.head? = some q1 ∧ c.char_start = q1.2.1)
        ∧ (∃ qn, h.getLast? = some qn ∧ c.char_end = qn.2.2)
        ∧ (h.length = 1
            → pyStrip (((normNewlines (text.getD [])).drop c.char_start).take
                (c.char_end - c.char_start)) = c.text) := by
  intro c hc
  obtain ⟨h, q1, qn, hne, hmem, hhead, hlast, htext, hcs, hce, _⟩ :=
    (chunk_page_spec text pg src d ttl s).groups c hc
  refine ⟨h, hne, ?_, htext, ⟨q1, hhead, hcs⟩, ⟨qn, hlast, hce⟩, ?_⟩
  · intro q hq
    have hP := hmem q hq
    obtain ⟨_, _, hslice⟩ := (split_paragraphs_spec text).1 q hP
    exact ⟨hP, hslice.symm⟩
  · intro hone
    cases h with
    | nil => exact absurd rfl hne
    | cons a rest =>
      cases rest with
      | nil =>
        have hq1 : a = q1 := by
          rw [show ([a] : List (Str × Nat × Nat)).head? = some a from rfl] at hhead
          injection hhead
        have hqn : a = qn := by
          rw [show ([a] : List (Str × Nat × Nat)).getLast? = some a from rfl] at hlast
          injection hlast
        obtain ⟨_, _, hslice⟩ := (split_paragraphs_spec text).1 a (hmem a (by simp))
        rw [hcs, hce, ← hq1, ← hqn, ← hslice, htext]
        rfl
      | cons b rest2 => simp at hone

theorem claim_c4_witness :
    ({ doc_id := [], title := [], chunk_id := 0, source := [], page := 1,
       text := List.replicate 5 'a', char_start := 0, char_end := 5 } : ChunkRec)
      ∈ (chunk_page (some (List.replicate 5 'a')) 1 [] [] [] 0).1
    ∧ ∃ h : List (Str × Nat × Nat), h ≠ []
        ∧ (∀ q ∈ h, q ∈ split_paragraphs (some (List.replicate 5 'a'))
            ∧ pyStrip (((normNewlines (List.replicate 5 'a')).drop q.2.1).take
                (q.2.2 - q.2.1)) = q.1)
        ∧ List.replicate 5 'a' = joinSep (h.map (fun q => q.1))
        ∧ (∃ q1, h.head? = some q1 ∧ 0 = q1.2.1)
        ∧ (∃ qn, h.getLast? = some qn ∧ 5 = qn.2.2)
        ∧ (h.length = 1
            → pyStrip (((normNewlines (List.replicate 5 'a')).drop 0).take
                (5 - 0)) = List.replicate 5 'a') :=
  ⟨by decide,
   claim_c4_amended_roundtrip (some (List.replicate 5 'a')) 1 [] [] [] 0
     { doc_id := [], title := [], chunk_id := 0, source := [], page := 1,
       text := List.replicate 5 'a', char_start := 0, char_end := 5 }
     (by decide)⟩

/-- Claim C8 (counterexample): the debug retrieval script
(`retrieve.py`'s `main`) queries a store with no collections via
`get_or_create_collection`: it silently creates an empty collection and
reports zero results instead of failing with an error distinct from
"no matches". -/
theorem claim_c8_counterexample :
    retrieveMain (fun _ => ([] : List Int)) (fun _ _ => (0 : Int)) []
        ("q".toList)
      = ([(COLLECTION_NAME, [])], some []) := by
  rfl

/-- Claim C8 (amended): the question-answering retriever
(`get_relevant_chunks`) fails with an error distinct from an empty result
set when the collection does not exist, and returns an empty (non-error)
result on an existing-but-empty collection; the developer-facing debug
script `retrieve.py`, however, silently creates an empty collection and
reports zero results (see the counterexample). -/
theorem claim_c8_amended_retriever_error (embed : Str → List Int)
    (dist : List Int → List Int → Int) (st : Store) (q : Str) (k : Nat)
    (doc_id : Option Str) :
    (getCollection st COLLECTION_NAME = none
      → get_relevant_chunks embed dist st q k doc_id
          = Except.error RetrievalError.collectionMissing)
    ∧ (getCollection st COLLECTION_NAME = some []
      → get_relevant_chunks embed dist st q k doc_id = Except.ok []) := by
  constructor
  · intro h
    unfold get_relevant_chunks
    rw [h]
  · intro h
    unfold get_relevant_chunks
    rw [h]
    simp [queryCollection, sortRanked]

theorem claim_c8_witness :
    (getCollection [] COLLECTION_NAME = none
      ∧ get_relevant_chunks (fun _ => ([] : List Int)) (fun _ _ => (0 : Int))
          [] ("q".toList) 5 none
        = Except.error RetrievalError.collectionMissing)
    ∧ (getCollection [(COLLECTION_NAME, [])] COLLECTION_NAME = some []
      ∧ get_relevant_chunks (fun _ => ([] : List Int)) (fun _ _ => (0 : Int))
          [(COLLECTION_NAME, [])] ("q".toList) 5 none = Except.ok []) :=
  ⟨⟨rfl, (claim_c8_amended_retriever_error _ _ [] _ 5 none).1 rfl⟩,
   ⟨rfl, (claim_c8_amended_retriever_error _ _ [(COLLECTION_NAME, [])] _ 5 none).2 rfl⟩⟩

/-! ## The two-page scenario of claim C1 -/

theorem containsSub_head_notin {p : Char} {ps l : Str} (h : ∀ c ∈ l, ¬c = p) :
    containsSub (p :: ps) l = false := by
  induction l with
  | nil => rfl
  | cons c rest ih =>
    have hne : (p == c) = false :=
      beq_eq_false_iff_ne.mpr (fun hpc => (h c (by simp)) hpc.symm)
    have hpre : (p :: ps).isPrefixOf (c :: rest) = false := by
      simp [List.isPrefixOf, hne]
    simp only [containsSub, hpre, Bool.false_or]
    exact ih (fun a ha => h a (by simp [ha]))

theorem subCountAux_head_notin {p : Char} {ps l : Str} (h : ∀ c ∈ l, ¬c = p) :
    subCountAux (p :: ps) 0 l = 0 := by
  induction l with
  | nil => rfl
  | cons c rest ih =>
    have hne : (p == c) = false :=
      beq_eq_false_iff_ne.mpr (fun hpc => (h c (by simp)) hpc.symm)
    have hpre : (p :: ps).isPrefixOf (c :: rest) = false := by
      simp [List.isPrefixOf, hne]
    simp only [subCountAux, hpre, Bool.and_false]
    exact ih (fun a ha => h a (by simp [ha]))

theorem mem_replicate_ne {n : Nat} {a p : Char} (hap : ¬a = p) :
    ∀ c ∈ List.replicate n a, ¬c = p := by
  intro c hc
  rw [List.eq_of_mem_replicate hc]
  exact hap

/-- The 900-character all-`'b'` chunk survives the noise filter: no token
rule fires and the trimmed length is 900 ≥ 150. -/
theorem is_noise_replicate_900b :
    is_noise (List.replicate 900 'b') = false := by
  have hlower : pyLower (List.replicate 900 'b') = List.replicate 900 'b' := by
    unfold pyLower
    rw [List.map_replicate]
    rfl
  have hstrip : pyStrip (List.replicate 900 'b') = List.replicate 900 'b' :=
    pyStrip_eq_self (noWSChar_replicate 900 (by decide)).noWSEdge
  have hisbn : containsSub "isbn".toList (List.replicate 900 'b') = false :=
    containsSub_head_notin (mem_replicate_ne (by decide))
  have hissn : containsSub "issn".toList (List.replicate 900 'b') = false :=
    containsSub_head_notin (mem_replicate_ne (by decide))
  have hdoi : containsSub "doi".toList (List.replicate 900 'b') = false :=
    containsSub_head_notin (mem_replicate_ne (by decide))
  have hurn : containsSub "urn:".toList (List.replicate 900 'b') = false :=
    containsSub_head_notin (mem_replicate_ne (by decide))
  have hsrc : containsSub "sources".toList
      ((List.replicate 900 'b').take 50) = false := by
    rw [List.take_replicate]
    exact containsSub_head_notin (mem_replicate_ne (by decide))
  have hhttp : subCount "http://".toList (List.replicate 900 'b') = 0 :=
    subCountAux_head_notin (mem_replicate_ne (by decide))
  have hhttps : subCount "https://".toList (List.replicate 900 'b') = 0 :=
    subCountAux_head_notin (mem_replicate_ne (by decide))
  have hwww : subCount "www.".toList (List.replicate 900 'b') = 0 :=
    subCountAux_head_notin (mem_replicate_ne (by decide))
  have hnot : ¬is_noise (List.replicate 900 'b') = true := by
    rw [is_noise_iff_rules]
    rintro (h | h | h | h)
    · unfold noiseRule1 at h
      rw [hlower] at h
      rcases h with h | h | h | h
      · rw [hisbn] at h; cases h
      · rw [hissn] at h; cases h
      · rw [hdoi] at h; cases h
      · rw [hurn] at h; cases h
    · unfold noiseRule2 at h
      rw [hlower, hsrc] at h
      cases h
    · unfold noiseRule3 at h
      rw [hlower, hhttp, hhttps, hwww] at h
      omega
    · unfold noiseRule4 at h
      rw [hstrip, List.length_replicate] at h
      omega
  cases hb : is_noise (List.replicate 900 'b') with
  | false => rfl
  | true => exact absurd hb hnot

/-- The 50-character filler chunk is dropped as noise (trimmed length
50 < 150). -/
theorem is_noise_replicate_50a : is_noise (List.replicate 50 'a') = true := by
  apply is_noise_of_short
  rw [pyStrip_eq_self (noWSChar_replicate 50 (by decide)).noWSEdge]
  simp

/-- The two pages of the claim C1 scenario: page 1 is 50 characters of
filler, page 2 a 900-character paragraph, both of document `doc1`. -/
def c1Pages : List PageRec :=
  [{ doc_id := "doc1".toList, title := "T".toList, page := 1,
     source := "s.pdf".toList, text := some (List.replicate 50 'a') },
   { doc_id := "doc1".toList, title := "T".toList, page := 2,
     source := "s.pdf".toList, text := some (List.replicate 900 'b') }]

/-- The two chunks of the claim C1 scenario. -/
def c1Chunk0 : ChunkRec :=
  { doc_id := "doc1".toList, title := "T".toList, chunk_id := 0,
    source := "s.pdf".toList, page := 1,
    text := List.replicate 50 'a', char_start := 0, char_end := 50 }

def c1Chunk1 : ChunkRec :=
  { doc_id := "doc1".toList, title := "T".toList, chunk_id := 1,
    source := "s.pdf".toList, page := 2,
    text := List.replicate 900 'b', char_start := 0, char_end := 900 }

/-- The single index entry built from the surviving chunk of the claim C1
scenario: note the metadata keys are exactly `page`, `source` and
`chunk_id` — `build_index.py` stores no `doc_id`. -/
def c1Entry (embed : Str → List Int) : IndexEntry :=
  { id := natToStr 1, document := List.replicate 900 'b',
    metadata := [("page".toList, MetaVal.int 2),
                 ("source".toList, MetaVal.str ("s.pdf".toList)),
                 ("chunk_id".toList, MetaVal.int 1)],
    embedding := embed (List.replicate 900 'b') }

/-- The chunker output on the claim C1 scenario: two chunks with
consecutive ids. -/
theorem c1_chunks : chunkPagesMain c1Pages = ([c1Chunk0, c1Chunk1], 2) := by
  unfold chunkPagesMain c1Pages c1Chunk0 c1Chunk1
  simp only [processPages]
  rw [chunk_page_plain (noWSChar_replicate 50 (by decide)) (by simp)]
  rw [chunk_page_plain (noWSChar_replicate 900 (by decide)) (by simp)]
  simp

/-- The index built on the claim C1 scenario: the filler chunk is dropped
as noise, the 900-character chunk is indexed, without `doc_id` metadata. -/
theorem c1_index (embed : Str → List Int) :
    buildIndexMain embed (chunkPagesMain c1Pages).1 []
      = [(COLLECTION_NAME, [c1Entry embed])] := by
  rw [c1_chunks]
  unfold buildIndexMain
  have h0 : is_noise c1Chunk0.text = true := is_noise_replicate_50a
  have h1 : is_noise c1Chunk1.text = false := is_noise_replicate_900b
  rw [show ([c1Chunk0, c1Chunk1] : List ChunkRec).filter
        (fun c => !is_noise c.text) = [c1Chunk1] by
    simp only [List.filter_cons, h0, h1, Bool.not_true, Bool.not_false,
      List.filter_nil]
    rfl]
  rfl

/-- Claim C1 (code bug): on the two-page scenario the index built by
`build_index.py` holds exactly one entry (the surviving 900-character
chunk), but its metadata carries only `page`, `source` and `chunk_id` -
no `doc_id` - so a query scoped to `doc_id = "doc1"` with `k = 5` matches
nothing and returns the empty result instead of that one entry, for every
embedding model and distance function. -/
theorem claim_c1_scoped_query_returns_nothing
    (embed : Str → List Int) (dist : List Int → List Int → Int)
    (question : Str) :
    (∃ e, getCollection (buildIndexMain embed (chunkPagesMain c1Pages).1 [])
          COLLECTION_NAME = some [e]
        ∧ e.document = List.replicate 900 'b'
        ∧ e.metadata.lookup ("doc_id".toList) = none)
    ∧ get_relevant_chunks embed dist
        (buildIndexMain embed (chunkPagesMain c1Pages).1 []) question 5
        (some ("doc1".toList))
      = Except.ok [] := by
  rw [c1_index]
  constructor
  · exact ⟨c1Entry embed, rfl, rfl, rfl⟩
  · unfold get_relevant_chunks
    rw [show getCollection [(COLLECTION_NAME, [c1Entry embed])] COLLECTION_NAME
      = some [c1Entry embed] from rfl]
    rfl

end Rag
